import Mathlib

/-!
Verification of the maze generation and pathfinding engine of
`maze_game.py` (python-maze-runner).

The embedding follows the source closely:

* a cell coordinate is a pair of integers `(x, y)` (Python int tuples);
* the grid of `Maze` is a total function `ℤ × ℤ → ℕ` together with the
  stored `width`/`height`; the value at `(x, y)` models `self.grid[y][x]`
  (`0` = passage, `1` = wall); all cells start at `1`;
* Python list indexing (`grid[y][x]`) is fallible: valid for indices in
  `[-len, len)`, with negative indices wrapping; it is modelled by `pyIdx`
  and the checked `Maze.read` / `Maze.write`;
* the `while` loops of `_generate`, `solve` and `reconstruct_path` are
  modelled with explicit fuel, returning `none` on exhaustion; the fuel
  supplied is proved (or, for the generator, witnessed) sufficient;
* `random.shuffle(directions)` is modelled by an injected stream
  `shuffle : ℕ → List (ℤ × ℤ)` giving the shuffled direction list used at
  each iteration of the generation loop; theorems assume each entry is a
  permutation of the source's direction list.
-/

/-- A maze cell coordinate `(x, y)`: `x` is the column, `y` the row. -/
abbrev Cell := ℤ × ℤ

/-- Python list indexing for a list of length `n`: index `i` is valid when
`-n ≤ i < n`, negative indices wrap around; returns the normalised
non-negative index. -/
def pyIdx (n : ℕ) (i : ℤ) : Option ℤ :=
  if 0 ≤ i ∧ i < (n : ℤ) then some i
  else if -(n : ℤ) ≤ i ∧ i < 0 then some (i + n)
  else none

/-- The maze of class `Maze`: stored `width`/`height` and the grid.
`cells (x, y)` is `self.grid[y][x]` (`0` passage, `1` wall); the grid is
created full of walls, so positions outside the rectangle hold `1`. -/
structure Maze where
  width : ℕ
  height : ℕ
  cells : Cell → ℕ

/-- Checked grid read, `self.grid[y][x]`, with Python list-index semantics
(row index first, then column index). -/
def Maze.read (m : Maze) (x y : ℤ) : Option ℕ := do
  let ry ← pyIdx m.height y
  let rx ← pyIdx m.width x
  pure (m.cells (rx, ry))

/-- Checked grid write, `self.grid[y][x] = v`, with Python list-index
semantics. -/
def Maze.write (m : Maze) (x y : ℤ) (v : ℕ) : Option Maze := do
  let ry ← pyIdx m.height y
  let rx ← pyIdx m.width x
  pure { m with cells := Function.update m.cells (rx, ry) v }

/-- The direction list `[(0, -2), (0, 2), (2, 0), (-2, 0)]` of
`Maze._generate`. -/
def genDirs : List (ℤ × ℤ) := [(0, -2), (0, 2), (2, 0), (-2, 0)]

/-- The `for dx, dy in directions` loop body of `Maze._generate`: scan the
(shuffled) direction list from cell `(x, y)`; for the first step-2 neighbour
that is in bounds (`1 ≤ nx < width - 1`, `1 ≤ ny < height - 1`) and still a
wall, carve it and the midpoint wall and report the carved neighbour.
Outer `none` is an index error; inner `none` means no direction qualified. -/
def tryCarve (m : Maze) (x y : ℤ) : List (ℤ × ℤ) → Option (Option (Maze × Cell))
  | [] => some none
  | (dx, dy) :: rest =>
      let nx := x + dx
      let ny := y + dy
      if 1 ≤ nx ∧ nx < (m.width : ℤ) - 1 ∧ 1 ≤ ny ∧ ny < (m.height : ℤ) - 1 then
        match m.read nx ny with
        | none => none
        | some v =>
          if v = 1 then
            match m.write nx ny 0 with
            | none => none
            | some m1 =>
              match m1.write (x + dx / 2) (y + dy / 2) 0 with
              | none => none
              | some m2 => some (some (m2, (nx, ny)))
          else tryCarve m x y rest
      else tryCarve m x y rest

/-- The `while stack` loop of `Maze._generate`, with explicit fuel.  The
head of the list is the top of the stack; `i` counts iterations and indexes
the shuffle stream. -/
def genLoop (shuffle : ℕ → List (ℤ × ℤ)) :
    ℕ → ℕ → Maze → List Cell → Option Maze
  | _, _, m, [] => some m
  | 0, _, _, _ :: _ => none
  | fuel + 1, i, m, (x, y) :: rest =>
      match tryCarve m x y (shuffle i) with
      | none => none
      | some none => genLoop shuffle fuel (i + 1) m rest
      | some (some (m', nb)) => genLoop shuffle fuel (i + 1) m' (nb :: (x, y) :: rest)

/-- `Maze._generate`: mark the start cell `(1, 1)` as passage (an unchecked
write in the source, hence fallible), then run the carving loop seeded with
the start cell. -/
def Maze.generate (shuffle : ℕ → List (ℤ × ℤ)) (m : Maze) : Option Maze := do
  let m1 ← m.write 1 1 0
  genLoop shuffle (2 * m.width * m.height + 2) 0 m1 [(1, 1)]

/-- Dimension normalisation of `Maze.__init__`: an even requested dimension
is incremented by one. -/
def oddify (n : ℕ) : ℕ := if n % 2 = 0 then n + 1 else n

/-- `Maze.__init__`: round the dimensions up to odd, build the all-wall
grid, and generate. -/
def mkMaze (width height : ℕ) (shuffle : ℕ → List (ℤ × ℤ)) : Option Maze :=
  Maze.generate shuffle
    { width := oddify width, height := oddify height, cells := fun _ => 1 }

/-- The unit direction list `[(0, -1), (0, 1), (1, 0), (-1, 0)]` of
`Maze.neighbors`. -/
def unitDirs : List (ℤ × ℤ) := [(0, -1), (0, 1), (1, 0), (-1, 0)]

/-- `Maze.neighbors`: the walkable (in-bounds passage) 4-neighbours of a
cell, in the fixed source order.  The grid read in the source sits under the
bound guard `0 ≤ nx < width ∧ 0 ≤ ny < height`, so it is in bounds by
construction and modelled by a direct `cells` application. -/
def Maze.neighbors (m : Maze) (c : Cell) : List Cell :=
  unitDirs.filterMap fun d =>
    let nx := c.1 + d.1
    let ny := c.2 + d.2
    if 0 ≤ nx ∧ nx < (m.width : ℤ) ∧ 0 ≤ ny ∧ ny < (m.height : ℤ) ∧
        m.cells (nx, ny) = 0
    then some (nx, ny) else none

/-- The predecessor dictionary of `Maze.solve`, in insertion order. -/
abbrev PredMap := List (Cell × Option Cell)

/-- Dictionary lookup `predecessors[c]` (`none` models a `KeyError`). -/
def lookupPred (ps : PredMap) (c : Cell) : Option (Option Cell) :=
  match ps with
  | [] => none
  | (k, v) :: rest => if k = c then some v else lookupPred rest c

/-- Keys of the predecessor dictionary. -/
def predKeys (ps : PredMap) : List Cell := ps.map Prod.fst

/-- The `for neighbor in self.neighbors(*current)` loop of `Maze.solve`:
append each undiscovered neighbour to the queue and record its
predecessor. -/
def visitNbrs (cur : Cell) : List Cell → List Cell → PredMap → List Cell × PredMap
  | [], queue, preds => (queue, preds)
  | n :: rest, queue, preds =>
      if n ∈ predKeys preds then visitNbrs cur rest queue preds
      else visitNbrs cur rest (queue ++ [n]) (preds ++ [(n, some cur)])

/-- The `while queue` loop of `Maze.solve`, with explicit fuel: pop the
front cell, break if it is the goal, otherwise visit its neighbours. -/
def bfsLoop (m : Maze) (goal : Cell) : ℕ → List Cell → PredMap → Option PredMap
  | _, [], preds => some preds
  | 0, _ :: _, _ => none
  | fuel + 1, cur :: queue, preds =>
      if cur = goal then some preds
      else
        let qp := visitNbrs cur (m.neighbors cur) queue preds
        bfsLoop m goal fuel qp.1 qp.2

/-- `Maze.solve`: BFS from `start`; returns the predecessor dictionary if
the goal was discovered and the empty dictionary otherwise. -/
def Maze.solve (m : Maze) (start goal : Cell) : Option PredMap :=
  match bfsLoop m goal (2 * m.width * m.height + 2) [start] [(start, none)] with
  | none => none
  | some preds => some (if goal ∈ predKeys preds then preds else [])

/-- The `while current is not None` loop of `Maze.reconstruct_path`,
building the cell list goal-first; a missing key is a `KeyError`. -/
def reconLoop (preds : PredMap) : ℕ → Cell → Option (List Cell)
  | 0, _ => none
  | fuel + 1, cur =>
      match lookupPred preds cur with
      | none => none
      | some none => some [cur]
      | some (some p) => (reconLoop preds fuel p).map (cur :: ·)

/-- `Maze.reconstruct_path`: walk the predecessor chain back from the goal,
then reverse.  The fuel `preds.length + 1` covers every terminating chain,
since a terminating chain visits pairwise-distinct keys. -/
def reconstruct_path (preds : PredMap) (goal : Cell) : Option (List Cell) :=
  (reconLoop preds (preds.length + 1) goal).map List.reverse

/-- The mutable state of class `MazeGame` (the curses screen aside). -/
structure GameState where
  maze : Maze
  player_pos : Cell
  goal_pos : Cell
  show_solution : Bool
  solution_path : List Cell

/-- The repeated solution-path computation
`preds = solve(...); path = reconstruct_path(preds, goal) if preds else []`
shared by `MazeGame.__init__`, the move branch and the new-maze branches. -/
def computeSolution (m : Maze) (player goal : Cell) : Option (List Cell) := do
  let preds ← m.solve player goal
  if preds = [] then pure [] else reconstruct_path preds goal

/-- `MazeGame.__init__` (screen handling aside): build the maze, place the
player at `(1, 1)` and the goal at `(width - 2, height - 2)`, precompute the
solution path. -/
def mkGame (width height : ℕ) (shuffle : ℕ → List (ℤ × ℤ)) : Option GameState := do
  let m ← mkMaze width height shuffle
  let player : Cell := (1, 1)
  let goal : Cell := ((m.width : ℤ) - 2, (m.height : ℤ) - 2)
  let path ← computeSolution m player goal
  pure { maze := m, player_pos := player, goal_pos := goal,
         show_solution := false, solution_path := path }

/-- The keys `MazeGame.handle_input` distinguishes. -/
inductive Key
  | up | down | left | right
  | keyQ | keyS | keyN | other

/-- The arrow-key movement deltas of the `keymap` in
`MazeGame.handle_input`. -/
def keyDelta : Key → Option (ℤ × ℤ)
  | .up => some (0, -1)
  | .down => some (0, 1)
  | .left => some (-1, 0)
  | .right => some (1, 0)
  | _ => none

/-- The new-maze code shared by the `'n'` branch of `handle_input` and of
`handle_win_input`: rebuild the maze with the current stored dimensions,
reset the player and goal, recompute the path, clear the
solution-visibility flag. -/
def regenerated (shuffle : ℕ → List (ℤ × ℤ)) (s : GameState) : Option GameState := do
  let m ← mkMaze s.maze.width s.maze.height shuffle
  let player : Cell := (1, 1)
  let goal : Cell := ((m.width : ℤ) - 2, (m.height : ℤ) - 2)
  let path ← computeSolution m player goal
  pure { maze := m, player_pos := player, goal_pos := goal,
         show_solution := false, solution_path := path }

/-- `MazeGame.handle_win_input`: consume further keys until `'n'`
(regenerate and resume, value `some s`) or `'q'` (raise `StopIteration`,
value `none`); running out of supplied keys models blocking forever. -/
def winLoop (shuffle : ℕ → List (ℤ × ℤ)) (s : GameState) :
    List Key → Option (Option GameState)
  | [] => none
  | .keyQ :: _ => some none
  | .keyN :: _ => (regenerated shuffle s).map some
  | _ :: rest => winLoop shuffle s rest

/-- The branch of `MazeGame.handle_input` selected by the key, before the
win check: arrow keys attempt a move (the unchecked read
`self.maze.grid[new_y][new_x]` is the fallible `Maze.read`), `'s'` toggles
the solution flag, `'n'` regenerates. -/
def mainBranch (shuffle : ℕ → List (ℤ × ℤ)) (s : GameState) (k : Key) :
    Option GameState :=
  match keyDelta k with
  | some d => do
      let nx := s.player_pos.1 + d.1
      let ny := s.player_pos.2 + d.2
      let v ← s.maze.read nx ny
      if v = 0 then do
        let path ← computeSolution s.maze (nx, ny) s.goal_pos
        pure { s with player_pos := (nx, ny), solution_path := path }
      else pure s
  | none =>
    match k with
    | .keyS => some { s with show_solution := !s.show_solution }
    | .keyN => regenerated shuffle s
    | _ => some s

/-- `MazeGame.handle_input` for one key (with `winKeys` the further keys the
win loop would consume): `'q'` returns `False` (`some none`); otherwise run
the selected branch, then the win check; result `some (some s)` is
"continue with state `s`". -/
def handleInput (shuffle : ℕ → List (ℤ × ℤ)) (s : GameState) (k : Key)
    (winKeys : List Key) : Option (Option GameState) :=
  match k with
  | .keyQ => some none
  | _ => do
      let s1 ← mainBranch shuffle s k
      if s1.player_pos = s1.goal_pos then winLoop shuffle s1 winKeys
      else pure (some s1)

/-- The coordinate rectangle of the grid. -/
def Maze.region (m : Maze) : Finset Cell :=
  Finset.Ico (0 : ℤ) (m.width : ℤ) ×ˢ Finset.Ico (0 : ℤ) (m.height : ℤ)

/-- Unit (4-directional) adjacency of cells. -/
def adj1 (p q : Cell) : Prop := (p.1 - q.1).natAbs + (p.2 - q.2).natAbs = 1

instance : DecidablePred fun pq : Cell × Cell => adj1 pq.1 pq.2 := by
  intro pq; unfold adj1; infer_instance

instance (p q : Cell) : Decidable (adj1 p q) := by unfold adj1; infer_instance

theorem adj1_symm {p q : Cell} (h : adj1 p q) : adj1 q p := by
  unfold adj1 at h ⊢; omega

theorem adj1_irrefl (p : Cell) : ¬ adj1 p p := by unfold adj1; omega

/-- The passage graph of a maze: in-grid passage cells joined by unit
adjacency. -/
def mazeGraph (m : Maze) : SimpleGraph Cell where
  Adj p q := p ∈ m.region ∧ q ∈ m.region ∧ m.cells p = 0 ∧ m.cells q = 0 ∧ adj1 p q
  symm := by
    intro p q h
    exact ⟨h.2.1, h.1, h.2.2.2.1, h.2.2.1, adj1_symm h.2.2.2.2⟩
  loopless := by
    intro p h
    exact adj1_irrefl p h.2.2.2.2

/-- Number of in-grid passage cells. -/
def Maze.passageCount (m : Maze) : ℕ :=
  (m.region.filter fun c => m.cells c = 0).card

/-- The right neighbour of a cell. -/
def rightC (c : Cell) : Cell := (c.1 + 1, c.2)

/-- The lower neighbour of a cell. -/
def downC (c : Cell) : Cell := (c.1, c.2 + 1)

/-- Number of carved adjacencies: unordered pairs of 4-adjacent in-grid
passage cells, each counted once via its left/top endpoint. -/
def Maze.edgeCount (m : Maze) : ℕ :=
  (m.region.filter fun c =>
    m.cells c = 0 ∧ m.cells (rightC c) = 0 ∧ rightC c ∈ m.region).card
  + (m.region.filter fun c =>
    m.cells c = 0 ∧ m.cells (downC c) = 0 ∧ downC c ∈ m.region).card

/-! ### Dimension preservation -/

theorem Maze.write_dims {m m' : Maze} {x y : ℤ} {v : ℕ}
    (h : m.write x y v = some m') : m'.width = m.width ∧ m'.height = m.height := by
  unfold Maze.write at h
  cases hy : pyIdx m.height y with
  | none => simp [hy] at h
  | some ry =>
    cases hx : pyIdx m.width x with
    | none => simp [hy, hx] at h
    | some rx =>
      simp only [hy, hx, Option.bind_eq_bind, Option.some_bind, pure] at h
      cases h
      exact ⟨rfl, rfl⟩

theorem tryCarve_dims {m : Maze} {x y : ℤ} {m' : Maze} {nb : Cell} :
    ∀ {ds : List (ℤ × ℤ)}, tryCarve m x y ds = some (some (m', nb)) →
    m'.width = m.width ∧ m'.height = m.height := by
  intro ds
  induction ds with
  | nil => intro h; simp [tryCarve] at h
  | cons d rest ih =>
    intro h
    obtain ⟨dx, dy⟩ := d
    unfold tryCarve at h
    dsimp only at h
    split at h
    · split at h
      · exact absurd h (by simp)
      · split at h
        · split at h
          · exact absurd h (by simp)
          · rename_i m1 hw1
            split at h
            · exact absurd h (by simp)
            · rename_i m2 hw2
              simp only [Option.some.injEq] at h
              cases h
              have d1 := Maze.write_dims hw1
              have d2 := Maze.write_dims hw2
              exact ⟨d2.1.trans d1.1, d2.2.trans d1.2⟩
        · exact ih h
    · exact ih h

theorem genLoop_dims {s : ℕ → List (ℤ × ℤ)} :
    ∀ {fuel i : ℕ} {m m' : Maze} {st : List Cell},
    genLoop s fuel i m st = some m' → m'.width = m.width ∧ m'.height = m.height := by
  intro fuel
  induction fuel with
  | zero =>
    intro i m m' st h
    cases st with
    | nil => cases h; exact ⟨rfl, rfl⟩
    | cons c rest => simp [genLoop] at h
  | succ n ih =>
    intro i m m' st h
    cases st with
    | nil => cases h; exact ⟨rfl, rfl⟩
    | cons c rest =>
      obtain ⟨x, y⟩ := c
      unfold genLoop at h
      cases hc : tryCarve m x y (s i) with
      | none => rw [hc] at h; exact absurd h (by simp)
      | some o =>
        rw [hc] at h
        cases o with
        | none => exact ih h
        | some p =>
          obtain ⟨m1, nb⟩ := p
          have := ih h
          have := tryCarve_dims hc
          exact ⟨by omega, by omega⟩

theorem Maze.generate_dims {s : ℕ → List (ℤ × ℤ)} {m m' : Maze}
    (h : m.generate s = some m') : m'.width = m.width ∧ m'.height = m.height := by
  unfold Maze.generate at h
  cases hw : m.write 1 1 0 with
  | none => simp [hw] at h
  | some m1 =>
    rw [hw] at h
    simp only [Option.bind_eq_bind, Option.some_bind] at h
    have d1 := Maze.write_dims hw
    have d2 := genLoop_dims h
    exact ⟨d2.1.trans d1.1, d2.2.trans d1.2⟩

theorem mkMaze_dims {W H : ℕ} {s : ℕ → List (ℤ × ℤ)} {m : Maze}
    (h : mkMaze W H s = some m) : m.width = oddify W ∧ m.height = oddify H :=
  Maze.generate_dims h

/-! ### Concrete instances used by witnesses -/

/-- A concrete shuffle stream: the direction list in source order every
iteration (one legal value of `random.shuffle`). -/
def constShuffle : ℕ → List (ℤ × ℤ) := fun _ => genDirs

/-- A second, syntactically different stream with the same values. -/
def constShuffle' : ℕ → List (ℤ × ℤ) := fun n => if n = n then genDirs else []

/-- The default junk maze used with `Option.getD`. -/
def junkMaze : Maze := { width := 0, height := 0, cells := fun _ => 1 }

/-- The maze produced by `Maze(3, 3)` under `constShuffle`. -/
def m33 : Maze := (mkMaze 3 3 constShuffle).getD junkMaze

/-- The maze produced by `Maze(4, 6)` under `constShuffle`. -/
def m46 : Maze := (mkMaze 4 6 constShuffle).getD junkMaze

/-- The maze produced by `Maze(5, 5)` under `constShuffle`. -/
def m55 : Maze := (mkMaze 5 5 constShuffle).getD junkMaze

/-! ### C4: odd-dimension normalisation -/

/-- C4: for every requested width and height, the constructed maze's stored
width is the requested width plus one if the requested width is even and
exactly the requested width if it is odd, and independently the same rule
holds for the height. -/
theorem C4_stored_dimensions (W H : ℕ) (s : ℕ → List (ℤ × ℤ)) (m : Maze)
    (h : mkMaze W H s = some m) :
    m.width = (if W % 2 = 0 then W + 1 else W) ∧
    m.height = (if H % 2 = 0 then H + 1 else H) := by
  have hd := mkMaze_dims h
  simpa [oddify] using hd

/-- Witness for C4: `Maze(4, 6)` yields stored dimensions 5 × 7 and
`Maze(5, 5)` yields 5 × 5. -/
theorem C4_stored_dimensions_witness :
    ((mkMaze 4 6 constShuffle).map Maze.width = some 5 ∧
     (mkMaze 4 6 constShuffle).map Maze.height = some 7) ∧
    ((mkMaze 5 5 constShuffle).map Maze.width = some 5 ∧
     (mkMaze 5 5 constShuffle).map Maze.height = some 5) := by
  have h46 : mkMaze 4 6 constShuffle = some m46 := by rfl
  have h55 : mkMaze 5 5 constShuffle = some m55 := by rfl
  have c46 := C4_stored_dimensions 4 6 constShuffle m46 h46
  have c55 := C4_stored_dimensions 5 5 constShuffle m55 h55
  refine ⟨⟨?_, ?_⟩, ?_, ?_⟩ <;>
    simp [h46, h55, c46.1, c46.2, c55.1, c55.2]

/-! ### C3: degenerate dimensions crash the generator -/

/-- C3 (refuting the claim as stated): for post-rounding width or height 1
the generator does NOT stay in bounds: the very first grid access, the
marking `self.grid[1][1] = 0` of the start cell, indexes outside the
allocated grid, so `Maze(1, 5)` and `Maze(1, 1)` fail with an IndexError
(modelled as `none`) for every randomness stream. -/
theorem C3_degenerate_crash (s : ℕ → List (ℤ × ℤ)) :
    mkMaze 1 5 s = none ∧ mkMaze 1 1 s = none := by
  constructor <;> rfl

/-! ### C9: determinism for a fixed randomness stream -/

/-- C9: maze generation is a deterministic function of the requested
dimensions and the injected randomness stream: two calls with equal
dimensions and pointwise-equal shuffle streams produce identical results. -/
theorem C9_deterministic (W H : ℕ) (s₁ s₂ : ℕ → List (ℤ × ℤ))
    (h : ∀ n, s₁ n = s₂ n) : mkMaze W H s₁ = mkMaze W H s₂ := by
  have hs : s₁ = s₂ := funext h
  rw [hs]

/-- Witness for C9: two generations of a 21 × 21 maze from equal-valued
streams coincide. -/
theorem C9_deterministic_witness :
    mkMaze 21 21 constShuffle = mkMaze 21 21 constShuffle' :=
  C9_deterministic 21 21 constShuffle constShuffle' (fun n => by
    simp [constShuffle, constShuffle'])

/-! ### C8: the degenerate solve with start = goal -/

/-- C8: for every maze and in-grid passage cell `c`, `solve(c, c)` returns
the dictionary with the single entry mapping `c` to the no-predecessor
sentinel, and `reconstruct_path` on that dictionary returns the
single-element path `[c]`. -/
theorem C8_start_eq_goal (m : Maze) (c : Cell)
    (hin : c ∈ m.region) (hp : m.cells c = 0) :
    m.solve c c = some [(c, none)] ∧
    reconstruct_path [(c, none)] c = some [c] := by
  have h2 : 2 * m.width * m.height + 2 = (2 * m.width * m.height + 1) + 1 := rfl
  constructor
  · simp [Maze.solve, h2, bfsLoop, predKeys]
  · simp [reconstruct_path, reconLoop, lookupPred]

/-- Witness for C8: on the generated 3 × 3 maze, `solve((1,1), (1,1))`
yields the singleton dictionary and the path `[(1, 1)]`. -/
theorem C8_start_eq_goal_witness :
    m33.solve (1, 1) (1, 1) = some [((1, 1), none)] ∧
    reconstruct_path [((1, 1), none)] (1, 1) = some [(1, 1)] :=
  C8_start_eq_goal m33 (1, 1) (by decide) (by decide)

/-! ### The neighbour relation and the passage graph -/

theorem mem_region {m : Maze} {c : Cell} :
    c ∈ m.region ↔ 0 ≤ c.1 ∧ c.1 < (m.width : ℤ) ∧ 0 ≤ c.2 ∧ c.2 < (m.height : ℤ) := by
  unfold Maze.region
  rcases c with ⟨x, y⟩
  simp [Finset.mem_product, Finset.mem_Ico]
  tauto

theorem mem_neighbors {m : Maze} {u v : Cell} :
    v ∈ m.neighbors u ↔ v ∈ m.region ∧ m.cells v = 0 ∧ adj1 u v := by
  rcases u with ⟨x, y⟩
  rcases v with ⟨a, b⟩
  unfold Maze.neighbors
  rw [List.mem_filterMap]
  simp only [unitDirs, List.mem_cons, List.not_mem_nil, or_false]
  constructor
  · rintro ⟨d, hd, hf⟩
    rcases hd with rfl | rfl | rfl | rfl <;>
    · dsimp only at hf
      split_ifs at hf with hc
      simp only [Option.some.injEq, Prod.mk.injEq] at hf
      obtain ⟨h1, h2⟩ := hf
      subst h1
      subst h2
      refine ⟨mem_region.mpr ⟨hc.1, hc.2.1, hc.2.2.1, hc.2.2.2.1⟩, hc.2.2.2.2, ?_⟩
      unfold adj1
      dsimp only
      omega
  · rintro ⟨hr, hp, hadj⟩
    rw [mem_region] at hr
    unfold adj1 at hadj
    dsimp only at hr hadj
    have hcase : (a = x ∧ b = y - 1) ∨ (a = x ∧ b = y + 1) ∨
        (a = x + 1 ∧ b = y) ∨ (a = x - 1 ∧ b = y) := by omega
    rcases hcase with ⟨h1, h2⟩ | ⟨h1, h2⟩ | ⟨h1, h2⟩ | ⟨h1, h2⟩
    · refine ⟨(0, -1), Or.inl rfl, ?_⟩
      dsimp only
      have e : ((x + (0:ℤ), y + (-1:ℤ)) : Cell) = (a, b) := by
        rw [Prod.mk.injEq]; omega
      rw [e, if_pos ⟨by omega, by omega, by omega, by omega, hp⟩]
    · refine ⟨(0, 1), Or.inr (Or.inl rfl), ?_⟩
      dsimp only
      have e : ((x + (0:ℤ), y + (1:ℤ)) : Cell) = (a, b) := by
        rw [Prod.mk.injEq]; omega
      rw [e, if_pos ⟨by omega, by omega, by omega, by omega, hp⟩]
    · refine ⟨(1, 0), Or.inr (Or.inr (Or.inl rfl)), ?_⟩
      dsimp only
      have e : ((x + (1:ℤ), y + (0:ℤ)) : Cell) = (a, b) := by
        rw [Prod.mk.injEq]; omega
      rw [e, if_pos ⟨by omega, by omega, by omega, by omega, hp⟩]
    · refine ⟨(-1, 0), Or.inr (Or.inr (Or.inr rfl)), ?_⟩
      dsimp only
      have e : ((x + (-1:ℤ), y + (0:ℤ)) : Cell) = (a, b) := by
        rw [Prod.mk.injEq]; omega
      rw [e, if_pos ⟨by omega, by omega, by omega, by omega, hp⟩]

instance (m : Maze) (p q : Cell) : Decidable ((mazeGraph m).Adj p q) :=
  decidable_of_iff
    (p ∈ m.region ∧ q ∈ m.region ∧ m.cells p = 0 ∧ m.cells q = 0 ∧ adj1 p q)
    Iff.rfl

/-- The reachability relation actually explored by `Maze.solve`: iterated
steps of "is a walkable neighbour of". -/
def reaches (m : Maze) (u v : Cell) : Prop :=
  Relation.ReflTransGen (fun a b => b ∈ m.neighbors a) u v

theorem adj_of_mem_neighbors {m : Maze} {u v : Cell}
    (hu : u ∈ m.region) (hup : m.cells u = 0) (h : v ∈ m.neighbors u) :
    (mazeGraph m).Adj u v := by
  rw [mem_neighbors] at h
  exact ⟨hu, h.1, hup, h.2.1, h.2.2⟩

theorem mem_neighbors_of_adj {m : Maze} {u v : Cell}
    (h : (mazeGraph m).Adj u v) : v ∈ m.neighbors u := by
  rw [mem_neighbors]
  exact ⟨h.2.1, h.2.2.2.1, h.2.2.2.2⟩

/-- Along the solver's reachability relation from an in-grid passage start,
every reached cell is an in-grid passage cell reachable in the passage
graph. -/
theorem reachable_of_reaches {m : Maze} {start c : Cell}
    (hs : start ∈ m.region) (hsp : m.cells start = 0) (h : reaches m start c) :
    (mazeGraph m).Reachable start c ∧ c ∈ m.region ∧ m.cells c = 0 := by
  induction h with
  | refl => exact ⟨SimpleGraph.Reachable.refl start, hs, hsp⟩
  | tail _ hstep ih =>
    have hadj := adj_of_mem_neighbors ih.2.1 ih.2.2 hstep
    rw [mem_neighbors] at hstep
    exact ⟨ih.1.trans hadj.reachable, hstep.1, hstep.2.1⟩

theorem reaches_of_reachable {m : Maze} {start c : Cell}
    (h : (mazeGraph m).Reachable start c) : reaches m start c := by
  obtain ⟨w⟩ := h
  induction w with
  | nil => exact Relation.ReflTransGen.refl
  | cons hadj _ ih =>
    exact Relation.ReflTransGen.head (mem_neighbors_of_adj hadj) ih

/-! ### Termination of the BFS loop -/

theorem region_card (m : Maze) : m.region.card = m.width * m.height := by
  unfold Maze.region
  rw [Finset.card_product]
  simp [Int.card_Ico]

theorem predKeys_append (ps : PredMap) (e : Cell × Option Cell) :
    predKeys (ps ++ [e]) = predKeys ps ++ [e.1] := by
  simp [predKeys]

theorem visitNbrs_phi (m : Maze) (cur : Cell) :
    ∀ (ns queue : List Cell) (preds : PredMap),
    (∀ n ∈ ns, n ∈ m.region) →
    (visitNbrs cur ns queue preds).1.length +
      2 * (m.region \ (predKeys (visitNbrs cur ns queue preds).2).toFinset).card ≤
    queue.length + 2 * (m.region \ (predKeys preds).toFinset).card := by
  intro ns
  induction ns with
  | nil => intro queue preds _; simp [visitNbrs]
  | cons n rest ih =>
    intro queue preds h
    unfold visitNbrs
    by_cases hm : n ∈ predKeys preds
    · rw [if_pos hm]
      exact ih queue preds fun x hx => h x (List.mem_cons_of_mem _ hx)
    · rw [if_neg hm]
      have hn : n ∈ m.region := h n (List.mem_cons_self n rest)
      have step := ih (queue ++ [n]) (preds ++ [(n, some cur)])
        (fun x hx => h x (List.mem_cons_of_mem _ hx))
      have hkeys : (predKeys (preds ++ [(n, some cur)])).toFinset =
          insert n (predKeys preds).toFinset := by
        rw [predKeys_append]
        simp only [List.toFinset_append, List.toFinset_cons, List.toFinset_nil,
          insert_emptyc_eq]
        rw [Finset.union_comm, Finset.insert_eq]
      have hmem : n ∈ m.region \ (predKeys preds).toFinset := by
        rw [Finset.mem_sdiff]
        exact ⟨hn, by simpa [List.mem_toFinset] using hm⟩
      have hcard : (m.region \ (predKeys (preds ++ [(n, some cur)])).toFinset).card =
          (m.region \ (predKeys preds).toFinset).card - 1 := by
        rw [hkeys, Finset.sdiff_insert, Finset.card_erase_of_mem hmem]
      have hpos : 1 ≤ (m.region \ (predKeys preds).toFinset).card :=
        Finset.card_pos.mpr ⟨n, hmem⟩
      rw [hcard] at step
      simp only [List.length_append, List.length_singleton] at step
      omega

theorem bfsLoop_total (m : Maze) (goal : Cell) :
    ∀ (fuel : ℕ) (queue : List Cell) (preds : PredMap),
    queue.length + 2 * (m.region \ (predKeys preds).toFinset).card < fuel →
    ∃ r, bfsLoop m goal fuel queue preds = some r := by
  intro fuel
  induction fuel with
  | zero => intro queue preds h; exact absurd h (Nat.not_lt_zero _)
  | succ k ih =>
    intro queue preds h
    cases queue with
    | nil => exact ⟨preds, rfl⟩
    | cons cur rest =>
      by_cases hg : cur = goal
      · refine ⟨preds, ?_⟩
        unfold bfsLoop
        rw [if_pos hg]
      · have hnb : ∀ n ∈ m.neighbors cur, n ∈ m.region := by
          intro n hn; exact (mem_neighbors.mp hn).1
        have hphi := visitNbrs_phi m cur (m.neighbors cur) rest preds hnb
        simp only [List.length_cons] at h
        obtain ⟨r, hr⟩ := ih (visitNbrs cur (m.neighbors cur) rest preds).1
          (visitNbrs cur (m.neighbors cur) rest preds).2 (by omega)
        refine ⟨r, ?_⟩
        unfold bfsLoop
        rw [if_neg hg]
        exact hr

theorem solve_isSome (m : Maze) (start goal : Cell) :
    ∃ r, m.solve start goal = some r := by
  have hb : (1 : ℕ) + 2 * (m.region \ (predKeys [(start, none)]).toFinset).card <
      2 * m.width * m.height + 2 := by
    have h1 : (m.region \ (predKeys [(start, none)]).toFinset).card ≤ m.region.card :=
      Finset.card_le_card (Finset.sdiff_subset)
    have h2 := region_card m
    have h3 : 2 * m.width * m.height = 2 * (m.width * m.height) := by ring
    omega
  obtain ⟨r, hr⟩ := bfsLoop_total m goal (2 * m.width * m.height + 2) [start]
    [(start, none)] (by simpa using hb)
  refine ⟨if goal ∈ predKeys r then r else [], ?_⟩
  unfold Maze.solve
  rw [hr]

/-! ### The BFS invariant -/

theorem mem_predKeys_of_mem {ps : PredMap} {c : Cell} {o : Option Cell}
    (h : (c, o) ∈ ps) : c ∈ predKeys ps :=
  List.mem_map_of_mem Prod.fst h

theorem exists_entry_of_mem_predKeys {ps : PredMap} {c : Cell}
    (h : c ∈ predKeys ps) : ∃ o, (c, o) ∈ ps := by
  obtain ⟨⟨c', o⟩, hm, he⟩ := List.mem_map.mp h
  cases he
  exact ⟨o, hm⟩

/-- Queue-independent facts maintained by the BFS about its predecessor
dictionary. -/
structure BfsCore (m : Maze) (start : Cell) (preds : PredMap) : Prop where
  nodupKeys : (predKeys preds).Nodup
  startMem : (start, (none : Option Cell)) ∈ preds
  noneStart : ∀ c, (c, (none : Option Cell)) ∈ preds → c = start
  parentEdge : ∀ c p, (c, some p) ∈ preds → p ∈ predKeys preds ∧ c ∈ m.neighbors p
  reach : ∀ c ∈ predKeys preds, reaches m start c

/-- The full BFS loop invariant. -/
structure BfsInv (m : Maze) (start : Cell) (queue : List Cell) (preds : PredMap)
    extends BfsCore m start preds : Prop where
  nodupQueue : queue.Nodup
  queueSub : ∀ c ∈ queue, c ∈ predKeys preds
  closed : ∀ c ∈ predKeys preds, c ∉ queue → ∀ n ∈ m.neighbors c, n ∈ predKeys preds

/-- Decomposition of one neighbour-visiting pass: the queue and dictionary
each grow by the block of newly discovered neighbours. -/
theorem visitNbrs_decomp (cur : Cell) :
    ∀ (ns queue : List Cell) (preds : PredMap),
    ∃ news : List Cell,
      (visitNbrs cur ns queue preds).1 = queue ++ news ∧
      (visitNbrs cur ns queue preds).2 = preds ++ news.map (fun n => (n, some cur)) ∧
      news.Nodup ∧
      (∀ n ∈ news, n ∈ ns ∧ n ∉ predKeys preds) ∧
      (∀ n ∈ ns, n ∈ predKeys preds ∨ n ∈ news) := by
  intro ns
  induction ns with
  | nil =>
    intro queue preds
    exact ⟨[], by simp [visitNbrs], by simp [visitNbrs], List.nodup_nil,
      by simp, by simp⟩
  | cons n rest ih =>
    intro queue preds
    unfold visitNbrs
    by_cases hm : n ∈ predKeys preds
    · rw [if_pos hm]
      obtain ⟨news, h1, h2, h3, h4, h5⟩ := ih queue preds
      refine ⟨news, h1, h2, h3,
        fun x hx => ⟨List.mem_cons_of_mem _ (h4 x hx).1, (h4 x hx).2⟩, ?_⟩
      intro x hx
      rcases List.mem_cons.mp hx with rfl | hx'
      · exact Or.inl hm
      · exact h5 x hx'
    · rw [if_neg hm]
      obtain ⟨news, h1, h2, h3, h4, h5⟩ := ih (queue ++ [n]) (preds ++ [(n, some cur)])
      refine ⟨n :: news, ?_, ?_, ?_, ?_, ?_⟩
      · rw [h1]; simp
      · rw [h2]; simp
      · refine List.Nodup.cons ?_ h3
        intro hn
        have := (h4 n hn).2
        rw [predKeys_append] at this
        exact this (by simp)
      · intro x hx
        rcases List.mem_cons.mp hx with rfl | hx'
        · exact ⟨List.mem_cons_self x rest, hm⟩
        · have h4' := h4 x hx'
          refine ⟨List.mem_cons_of_mem _ h4'.1, ?_⟩
          intro hk
          exact h4'.2 (by rw [predKeys_append]; exact List.mem_append_left _ hk)
      · intro x hx
        rcases List.mem_cons.mp hx with rfl | hx'
        · exact Or.inr (List.mem_cons_self x news)
        · rcases h5 x hx' with hk | hn
          · rw [predKeys_append] at hk
            rcases List.mem_append.mp hk with hk' | hk'
            · exact Or.inl hk'
            · simp only [List.mem_singleton] at hk'
              exact Or.inr (hk' ▸ List.mem_cons_self x news)
          · exact Or.inr (List.mem_cons_of_mem _ hn)

theorem predKeys_append_news (preds : PredMap) (cur : Cell) (news : List Cell) :
    predKeys (preds ++ news.map (fun n => (n, some cur))) = predKeys preds ++ news := by
  unfold predKeys
  rw [List.map_append, List.map_map]
  have hid : (Prod.fst ∘ fun n : Cell => (n, some cur)) = id := rfl
  rw [hid, List.map_id]

/-- One BFS iteration (pop `cur`, visit its neighbours) preserves the
invariant. -/
theorem bfsInv_step {m : Maze} {start cur : Cell} {rest : List Cell} {preds : PredMap}
    (inv : BfsInv m start (cur :: rest) preds) :
    BfsInv m start (visitNbrs cur (m.neighbors cur) rest preds).1
      (visitNbrs cur (m.neighbors cur) rest preds).2 := by
  obtain ⟨news, hq, hp, hnodup, hnews, hcover⟩ :=
    visitNbrs_decomp cur (m.neighbors cur) rest preds
  have hcur : cur ∈ predKeys preds := inv.queueSub cur (List.mem_cons_self _ _)
  have hkeys : predKeys (visitNbrs cur (m.neighbors cur) rest preds).2 =
      predKeys preds ++ news := by rw [hp]; exact predKeys_append_news _ _ _
  have hrest : rest.Nodup := inv.nodupQueue.of_cons
  constructor
  · -- BfsCore
    constructor
    · rw [hkeys]
      refine inv.nodupKeys.append hnodup ?_
      intro a ha hb
      exact (hnews a hb).2 ha
    · rw [hp]; exact List.mem_append_left _ inv.startMem
    · intro c hc
      rw [hp] at hc
      rcases List.mem_append.mp hc with hc' | hc'
      · exact inv.noneStart c hc'
      · obtain ⟨n, _, hn⟩ := List.mem_map.mp hc'
        exact absurd (congrArg Prod.snd hn) (by simp)
    · intro c p hcp
      rw [hp] at hcp
      rcases List.mem_append.mp hcp with hc' | hc'
      · obtain ⟨h1, h2⟩ := inv.parentEdge c p hc'
        exact ⟨by rw [hkeys]; exact List.mem_append_left _ h1, h2⟩
      · obtain ⟨n, hn, he⟩ := List.mem_map.mp hc'
        have e1 : n = c := congrArg Prod.fst he
        have e2 : cur = p := Option.some.inj (congrArg Prod.snd he)
        constructor
        · rw [hkeys]
          exact List.mem_append_left _ (e2 ▸ hcur)
        · rw [← e1, ← e2]
          exact (hnews n hn).1
    · intro c hc
      rw [hkeys] at hc
      rcases List.mem_append.mp hc with hc' | hc'
      · exact inv.reach c hc'
      · exact Relation.ReflTransGen.tail (inv.reach cur hcur) (hnews c hc').1
  · -- nodupQueue
    rw [hq]
    refine hrest.append hnodup ?_
    intro a ha hb
    exact (hnews a hb).2 (inv.queueSub a (List.mem_cons_of_mem _ ha))
  · -- queueSub
    intro c hc
    rw [hq] at hc
    rw [hkeys]
    rcases List.mem_append.mp hc with hc' | hc'
    · exact List.mem_append_left _ (inv.queueSub c (List.mem_cons_of_mem _ hc'))
    · exact List.mem_append_right _ hc'
  · -- closed
    intro c hc hcq n hn
    rw [hkeys] at hc
    rw [hq] at hcq
    rw [hkeys]
    rcases List.mem_append.mp hc with hc' | hc'
    · by_cases hccur : c = cur
      · subst hccur
        rcases hcover n hn with h | h
        · exact List.mem_append_left _ h
        · exact List.mem_append_right _ h
      · have hcq' : c ∉ cur :: rest := by
          intro hx
          rcases List.mem_cons.mp hx with h | h
          · exact hccur h
          · exact hcq (List.mem_append_left _ h)
        exact List.mem_append_left _ (inv.closed c hc' hcq' n hn)
    · exact absurd (List.mem_append_right rest hc') hcq

/-- Running the BFS loop from an invariant state yields the core facts,
and either the goal was discovered (early exit or not) or the dictionary is
closed under the neighbour relation. -/
theorem bfsLoop_final {m : Maze} {start goal : Cell} :
    ∀ {fuel : ℕ} {queue : List Cell} {preds r : PredMap},
    BfsInv m start queue preds →
    bfsLoop m goal fuel queue preds = some r →
    BfsCore m start r ∧
      (goal ∈ predKeys r ∨
        ∀ c ∈ predKeys r, ∀ n ∈ m.neighbors c, n ∈ predKeys r) := by
  intro fuel
  induction fuel with
  | zero =>
    intro queue preds r inv h
    cases queue with
    | nil =>
      cases h
      exact ⟨inv.toBfsCore, Or.inr fun c hc n hn =>
        inv.closed c hc (List.not_mem_nil c) n hn⟩
    | cons cur rest => exact absurd h (by simp [bfsLoop])
  | succ k ih =>
    intro queue preds r inv h
    cases queue with
    | nil =>
      cases h
      exact ⟨inv.toBfsCore, Or.inr fun c hc n hn =>
        inv.closed c hc (List.not_mem_nil c) n hn⟩
    | cons cur rest =>
      unfold bfsLoop at h
      by_cases hg : cur = goal
      · rw [if_pos hg] at h
        cases h
        subst hg
        exact ⟨inv.toBfsCore,
          Or.inl (inv.queueSub cur (List.mem_cons_self _ _))⟩
      · rw [if_neg hg] at h
        exact ih (bfsInv_step inv) h

/-- The invariant holds at BFS start-up. -/
theorem bfsInv_init (m : Maze) (start : Cell) :
    BfsInv m start [start] [(start, none)] := by
  constructor
  · constructor
    · simp [predKeys]
    · simp
    · intro c hc; simpa using congrArg Prod.fst (List.mem_singleton.mp hc)
    · intro c p hcp
      have := congrArg Prod.snd (List.mem_singleton.mp hcp)
      simp at this
    · intro c hc
      simp only [predKeys, List.map_cons, List.map_nil, List.mem_singleton] at hc
      subst hc
      exact Relation.ReflTransGen.refl
  · simp
  · intro c hc
    simp only [List.mem_singleton] at hc
    subst hc
    simp [predKeys]
  · intro c hc hcq
    exact absurd (by
      simpa [predKeys] using hc : c = start) (by
        intro h; exact hcq (by simp [h]))

/-- Running `Maze.solve` always returns, with the loop result exposed. -/
theorem solve_run (m : Maze) (start goal : Cell) :
    ∃ preds,
      bfsLoop m goal (2 * m.width * m.height + 2) [start] [(start, none)] = some preds ∧
      m.solve start goal = some (if goal ∈ predKeys preds then preds else []) := by
  have hb : (1 : ℕ) + 2 * (m.region \ (predKeys [(start, none)]).toFinset).card <
      2 * m.width * m.height + 2 := by
    have h1 : (m.region \ (predKeys [(start, none)]).toFinset).card ≤ m.region.card :=
      Finset.card_le_card (Finset.sdiff_subset)
    have h2 := region_card m
    have h3 : 2 * m.width * m.height = 2 * (m.width * m.height) := by ring
    omega
  obtain ⟨r, hr⟩ := bfsLoop_total m goal (2 * m.width * m.height + 2) [start]
    [(start, none)] (by simpa using hb)
  refine ⟨r, hr, ?_⟩
  unfold Maze.solve
  rw [hr]

/-! ### C5: empty map exactly when the goal is never discovered -/

/-- C5: for every maze and in-grid start and goal, `solve` returns normally
(never fails), and it returns the empty dictionary if and only if the goal
is not reachable from the start through walkable-neighbour steps, i.e. is
never discovered by the BFS. -/
theorem C5_unreachable_empty_map (m : Maze) (start goal : Cell)
    (hs : start ∈ m.region) (hg : goal ∈ m.region) :
    (m.solve start goal).isSome = true ∧
    (m.solve start goal = some [] ↔ ¬ reaches m start goal) := by
  obtain ⟨preds, hloop, hsolve⟩ := solve_run m start goal
  obtain ⟨core, hexit⟩ := bfsLoop_final (bfsInv_init m start) hloop
  have hstartk : start ∈ predKeys preds := mem_predKeys_of_mem core.startMem
  constructor
  · rw [hsolve]; rfl
  · by_cases hgk : goal ∈ predKeys preds
    · rw [hsolve, if_pos hgk]
      have hne : preds ≠ [] := by
        intro h
        rw [h] at hstartk
        simp [predKeys] at hstartk
      have hreach : reaches m start goal := core.reach goal hgk
      exact ⟨fun he => absurd (Option.some.inj he) hne, fun hn => absurd hreach hn⟩
    · rw [hsolve, if_neg hgk]
      have hclosed : ∀ c ∈ predKeys preds, ∀ n ∈ m.neighbors c, n ∈ predKeys preds := by
        rcases hexit with h | h
        · exact absurd h hgk
        · exact h
      have hmem : ∀ c, reaches m start c → c ∈ predKeys preds := by
        intro c hc
        induction hc with
        | refl => exact hstartk
        | tail h1 h2 ih => exact hclosed _ ih _ h2
      have hnr : ¬ reaches m start goal := fun hr => hgk (hmem goal hr)
      exact ⟨fun _ => hnr, fun _ => rfl⟩

/-- Witness for C5: on the generated 5 × 7 maze, solving towards the wall
corner `(0, 0)` returns normally with the empty dictionary. -/
theorem C5_unreachable_empty_map_witness :
    (m46.solve (1, 1) (0, 0)).isSome = true ∧
    (m46.solve (1, 1) (0, 0) = some [] ↔ ¬ reaches m46 (1, 1) (0, 0)) :=
  C5_unreachable_empty_map m46 (1, 1) (0, 0) (by decide) (by decide)

/-! ### Distance lemmas for the passage graph -/

theorem dist_adj_le {m : Maze} {start u v : Cell}
    (hr : (mazeGraph m).Reachable start u) (h : (mazeGraph m).Adj u v) :
    (mazeGraph m).dist start v ≤ (mazeGraph m).dist start u + 1 := by
  obtain ⟨w, hw⟩ := hr.exists_walk_length_eq_dist
  have hle := SimpleGraph.dist_le (w.concat h)
  rwa [SimpleGraph.Walk.length_concat, hw] at hle

theorem dist_pred {m : Maze} {start v : Cell}
    (hv : (mazeGraph m).Reachable start v) (hne : v ≠ start) :
    ∃ u, (mazeGraph m).Adj u v ∧ (mazeGraph m).Reachable start u ∧
      (mazeGraph m).dist start u + 1 = (mazeGraph m).dist start v := by
  obtain ⟨w, hw⟩ := hv.symm.exists_walk_length_eq_dist
  cases w with
  | nil => exact absurd rfl hne
  | cons hadj p =>
    rename_i u
    refine ⟨u, hadj.symm, p.reverse.reachable, ?_⟩
    have h1 : (mazeGraph m).dist start u ≤ p.length := by
      have := SimpleGraph.dist_le p.reverse
      rwa [SimpleGraph.Walk.length_reverse] at this
    have h2 : (mazeGraph m).dist start v ≤ (mazeGraph m).dist start u + 1 :=
      dist_adj_le p.reverse.reachable hadj.symm
    have h3 : p.length + 1 = (mazeGraph m).dist start v := by
      rw [SimpleGraph.dist_comm]
      simpa [SimpleGraph.Walk.length_cons] using hw
    omega

/-! ### The distance refinement of the BFS invariant -/

/-- Distance facts maintained by the BFS (for an in-grid passage start):
predecessor entries step the true BFS distance by exactly one, and the
queue holds cells of nondecreasing distance spanning at most two layers. -/
structure DistInv (m : Maze) (start : Cell) (queue : List Cell) (preds : PredMap) : Prop where
  distParent : ∀ c p, (c, some p) ∈ preds →
    (mazeGraph m).dist start c = (mazeGraph m).dist start p + 1
  sorted : queue.Pairwise
    (fun a b => (mazeGraph m).dist start a ≤ (mazeGraph m).dist start b)
  band : ∀ a ∈ queue, ∀ b ∈ queue,
    (mazeGraph m).dist start b ≤ (mazeGraph m).dist start a + 1

theorem distInv_init (m : Maze) (start : Cell) :
    DistInv m start [start] [(start, none)] := by
  constructor
  · intro c p hcp
    have := congrArg Prod.snd (List.mem_singleton.mp hcp)
    simp at this
  · simp
  · intro a ha b hb
    simp only [List.mem_singleton] at ha hb
    subst ha
    subst hb
    omega

/-- Layer completeness: while `cur` is being dequeued, every reachable cell
at distance at most `dist start cur` has already been discovered. -/
theorem discovered_of_dist_le {m : Maze} {start : Cell}
    (hs : start ∈ m.region) (hsp : m.cells start = 0)
    {cur : Cell} {rest : List Cell} {preds : PredMap}
    (inv : BfsInv m start (cur :: rest) preds)
    (dinv : DistInv m start (cur :: rest) preds) :
    ∀ (k : ℕ) (v : Cell), (mazeGraph m).Reachable start v →
      (mazeGraph m).dist start v = k →
      k ≤ (mazeGraph m).dist start cur → v ∈ predKeys preds := by
  intro k
  induction k using Nat.strong_induction_on with
  | _ k ih =>
    intro v hv hk hle
    by_cases hvs : v = start
    · subst hvs
      exact mem_predKeys_of_mem inv.startMem
    · have hk1 : 1 ≤ k := by
        rcases Nat.eq_zero_or_pos k with h0 | h1
        · exfalso
          apply hvs
          have := (hv.dist_eq_zero_iff).mp (by omega)
          exact this.symm
        · exact h1
      obtain ⟨u, hadj, hru, hdu⟩ := dist_pred hv hvs
      have huk : (mazeGraph m).dist start u = k - 1 := by omega
      have humem : u ∈ predKeys preds :=
        ih (k - 1) (by omega) u hru huk (by omega)
      by_cases huq : u ∈ cur :: rest
      · exfalso
        rcases List.mem_cons.mp huq with rfl | hur
        · omega
        · have hsort := (List.pairwise_cons.mp dinv.sorted).1 u hur
          omega
      · exact inv.closed u humem huq v (mem_neighbors_of_adj hadj)

/-- One BFS iteration preserves the distance invariant. -/
theorem distInv_step {m : Maze} {start cur : Cell} {rest : List Cell} {preds : PredMap}
    (hs : start ∈ m.region) (hsp : m.cells start = 0)
    (inv : BfsInv m start (cur :: rest) preds)
    (dinv : DistInv m start (cur :: rest) preds) :
    DistInv m start (visitNbrs cur (m.neighbors cur) rest preds).1
      (visitNbrs cur (m.neighbors cur) rest preds).2 := by
  obtain ⟨news, hq, hp, hnodup, hnews, hcover⟩ :=
    visitNbrs_decomp cur (m.neighbors cur) rest preds
  have hcurk : cur ∈ predKeys preds := inv.queueSub cur (List.mem_cons_self _ _)
  have hcurf := reachable_of_reaches hs hsp (inv.reach cur hcurk)
  have hnewdist : ∀ n ∈ news, (mazeGraph m).dist start n =
      (mazeGraph m).dist start cur + 1 := by
    intro n hn
    have hnnb : n ∈ m.neighbors cur := (hnews n hn).1
    have hadj : (mazeGraph m).Adj cur n :=
      adj_of_mem_neighbors hcurf.2.1 hcurf.2.2 hnnb
    have hle : (mazeGraph m).dist start n ≤ (mazeGraph m).dist start cur + 1 :=
      dist_adj_le hcurf.1 hadj
    have hnr : (mazeGraph m).Reachable start n := hcurf.1.trans hadj.reachable
    have hge : ¬ (mazeGraph m).dist start n ≤ (mazeGraph m).dist start cur := by
      intro hcon
      exact (hnews n hn).2
        (discovered_of_dist_le hs hsp inv dinv ((mazeGraph m).dist start n) n hnr rfl hcon)
    omega
  have hsortrest := (List.pairwise_cons.mp dinv.sorted).1
  constructor
  · -- distParent
    intro c p hcp
    rw [hp] at hcp
    rcases List.mem_append.mp hcp with hc' | hc'
    · exact dinv.distParent c p hc'
    · obtain ⟨n, hn, he⟩ := List.mem_map.mp hc'
      have e1 : n = c := congrArg Prod.fst he
      have e2 : cur = p := Option.some.inj (congrArg Prod.snd he)
      rw [← e1, ← e2]
      exact hnewdist n hn
  · -- sorted
    rw [hq, List.pairwise_append]
    refine ⟨dinv.sorted.of_cons, ?_, ?_⟩
    · exact List.pairwise_of_forall_mem_list fun a ha b hb => by
        rw [hnewdist a ha, hnewdist b hb]
    · intro a ha b hb
      have h1 : (mazeGraph m).dist start a ≤ (mazeGraph m).dist start cur + 1 :=
        dinv.band cur (List.mem_cons_self _ _) a (List.mem_cons_of_mem _ ha)
      rw [hnewdist b hb]
      exact h1
  · -- band
    intro a ha b hb
    rw [hq] at ha hb
    have hage : (mazeGraph m).dist start cur ≤ (mazeGraph m).dist start a := by
      rcases List.mem_append.mp ha with h | h
      · exact hsortrest a h
      · rw [hnewdist a h]; omega
    rcases List.mem_append.mp hb with h | h
    · have := dinv.band cur (List.mem_cons_self _ _) b (List.mem_cons_of_mem _ h)
      omega
    · rw [hnewdist b h]
      omega

/-- Running the BFS loop preserves the exact-distance property of the
predecessor entries in the final dictionary. -/
theorem bfsLoop_dist {m : Maze} {start goal : Cell}
    (hs : start ∈ m.region) (hsp : m.cells start = 0) :
    ∀ {fuel : ℕ} {queue : List Cell} {preds r : PredMap},
    BfsInv m start queue preds → DistInv m start queue preds →
    bfsLoop m goal fuel queue preds = some r →
    ∀ c p, (c, some p) ∈ r →
      (mazeGraph m).dist start c = (mazeGraph m).dist start p + 1 := by
  intro fuel
  induction fuel with
  | zero =>
    intro queue preds r inv dinv h
    cases queue with
    | nil => cases h; exact dinv.distParent
    | cons cur rest => exact absurd h (by simp [bfsLoop])
  | succ k ih =>
    intro queue preds r inv dinv h
    cases queue with
    | nil => cases h; exact dinv.distParent
    | cons cur rest =>
      unfold bfsLoop at h
      by_cases hg : cur = goal
      · rw [if_pos hg] at h
        cases h
        exact dinv.distParent
      · rw [if_neg hg] at h
        exact ih (bfsInv_step inv) (distInv_step hs hsp inv dinv) h

/-! ### Path reconstruction -/

theorem lookupPred_eq_of_mem :
    ∀ {ps : PredMap} {c : Cell} {o : Option Cell},
    (predKeys ps).Nodup → (c, o) ∈ ps → lookupPred ps c = some o := by
  intro ps
  induction ps with
  | nil => intro c o _ h; simp at h
  | cons e rest ih =>
    intro c o hnodup h
    obtain ⟨k, v⟩ := e
    have hkeys : predKeys ((k, v) :: rest) = k :: predKeys rest := rfl
    rw [hkeys] at hnodup
    unfold lookupPred
    rcases List.mem_cons.mp h with he | ht
    · cases he
      rw [if_pos rfl]
    · by_cases hkc : k = c
      · subst hkc
        exact absurd (mem_predKeys_of_mem ht) (List.nodup_cons.mp hnodup).1
      · rw [if_neg hkc]
        exact ih (List.nodup_cons.mp hnodup).2 ht

theorem reconLoop_mono :
    ∀ {f₁ f₂ : ℕ} {preds : PredMap} {c : Cell} {l : List Cell}, f₁ ≤ f₂ →
    reconLoop preds f₁ c = some l → reconLoop preds f₂ c = some l := by
  intro f₁
  induction f₁ with
  | zero => intro f₂ preds c l _ h; exact absurd h (by simp [reconLoop])
  | succ k ih =>
    intro f₂ preds c l hle h
    cases f₂ with
    | zero => omega
    | succ k₂ =>
      unfold reconLoop at h ⊢
      cases hlook : lookupPred preds c with
      | none =>
        rw [hlook] at h
        dsimp only at h
        exact Option.noConfusion h
      | some o =>
        rw [hlook] at h
        cases o with
        | none => exact h
        | some p =>
          dsimp only at h ⊢
          rw [Option.map_eq_some'] at h ⊢
          obtain ⟨l', hl', he⟩ := h
          exact ⟨l', ih (by omega) hl', he⟩

/-- Walking the predecessor chain from a discovered cell at distance `k`
yields, with fuel `k + 1`, the goal-first cell list: it starts at the cell,
ends at the start, has length `k + 1`, and consecutive cells are joined by
passage-graph edges (towards the goal). -/
theorem reconLoop_spec {m : Maze} {start : Cell} {preds : PredMap}
    (hs : start ∈ m.region) (hsp : m.cells start = 0)
    (core : BfsCore m start preds)
    (hdist : ∀ c p, (c, some p) ∈ preds →
      (mazeGraph m).dist start c = (mazeGraph m).dist start p + 1) :
    ∀ (k : ℕ) (c : Cell), c ∈ predKeys preds → (mazeGraph m).dist start c = k →
    ∃ l : List Cell,
      reconLoop preds (k + 1) c = some l ∧
      l.head? = some c ∧ l.getLast? = some start ∧ l.length = k + 1 ∧
      List.Chain' (fun a b => (mazeGraph m).Adj b a) l ∧
      l.Nodup ∧
      ∀ x ∈ l, x ∈ predKeys preds ∧ (mazeGraph m).dist start x ≤ k := by
  intro k
  induction k using Nat.strong_induction_on with
  | _ k ih =>
    intro c hc hk
    obtain ⟨o, ho⟩ := exists_entry_of_mem_predKeys hc
    have hlook : lookupPred preds c = some o := lookupPred_eq_of_mem core.nodupKeys ho
    cases o with
    | none =>
      have hcs : c = start := core.noneStart c ho
      subst hcs
      have hk0 : k = 0 := by
        rw [SimpleGraph.dist_self] at hk
        omega
      subst hk0
      refine ⟨[c], by simp [reconLoop, hlook], rfl, rfl, rfl, by simp, by simp, ?_⟩
      intro x hx
      rw [List.mem_singleton] at hx
      subst hx
      exact ⟨hc, by rw [SimpleGraph.dist_self]⟩
    | some p =>
      have hpe := core.parentEdge c p ho
      have hd := hdist c p ho
      have hk1 : 1 ≤ k := by omega
      have hpdist : (mazeGraph m).dist start p = k - 1 := by omega
      obtain ⟨l', hrec', hhead', hlast', hlen', hchain', hnodup', hmem'⟩ :=
        ih (k - 1) (by omega) p hpe.1 hpdist
      have hkk : k - 1 + 1 = k := by omega
      rw [hkk] at hrec'
      have hstep : reconLoop preds (k + 1) c = (reconLoop preds k p).map (c :: ·) := by
        rw [reconLoop, hlook]
      have hpfacts := reachable_of_reaches hs hsp (core.reach p hpe.1)
      have hadj : (mazeGraph m).Adj p c :=
        adj_of_mem_neighbors hpfacts.2.1 hpfacts.2.2 hpe.2
      have hcnot : c ∉ l' := by
        intro hx
        have := (hmem' c hx).2
        omega
      refine ⟨c :: l', ?_, rfl, ?_, ?_, ?_, ?_, ?_⟩
      · rw [hstep, hrec']
        rfl
      · cases l' with
        | nil => simp at hlen'
        | cons a t => simpa using hlast'
      · simp only [List.length_cons, hlen']
        omega
      · cases l' with
        | nil => simp at hlen'
        | cons a t =>
          have ha : a = p := by simpa using hhead'
          subst ha
          exact List.Chain'.cons hadj hchain'
      · exact List.Nodup.cons hcnot hnodup'
      · intro x hx
        rcases List.mem_cons.mp hx with rfl | hx'
        · exact ⟨hc, by omega⟩
        · exact ⟨(hmem' x hx').1, by have := (hmem' x hx').2; omega⟩

/-! ### C2: BFS plus reconstruction yields a shortest path -/

/-- C2: for every maze and in-grid passage start and goal with the goal
reachable from the start, `solve` followed by `reconstruct_path` returns a
sequence that begins with the start, ends with the goal, steps only along
edges of the passage graph (4-adjacent passage cells), and has length equal
to the graph distance between start and goal plus one — a shortest path;
this holds for the source's loop with its early exit at the goal. -/
theorem C2_bfs_shortest_path (m : Maze) (start goal : Cell)
    (hsr : start ∈ m.region) (hsp : m.cells start = 0)
    (hgr : goal ∈ m.region) (hgp : m.cells goal = 0)
    (hreach : (mazeGraph m).Reachable start goal) :
    ∃ preds path,
      m.solve start goal = some preds ∧
      reconstruct_path preds goal = some path ∧
      path.head? = some start ∧
      path.getLast? = some goal ∧
      List.Chain' (mazeGraph m).Adj path ∧
      path.length = (mazeGraph m).dist start goal + 1 := by
  obtain ⟨preds, hloop, hsolve⟩ := solve_run m start goal
  obtain ⟨core, hexit⟩ := bfsLoop_final (bfsInv_init m start) hloop
  have hdist := bfsLoop_dist hsr hsp (bfsInv_init m start) (distInv_init m start) hloop
  have hgk : goal ∈ predKeys preds := by
    rcases hexit with h | hclosed
    · exact h
    · have hmem : ∀ c, reaches m start c → c ∈ predKeys preds := by
        intro c hcr
        induction hcr with
        | refl => exact mem_predKeys_of_mem core.startMem
        | tail h1 h2 ihh => exact hclosed _ ihh _ h2
      exact hmem goal (reaches_of_reachable hreach)
  obtain ⟨l, hrecl, hheadl, hlastl, hlenl, hchainl, hnodupl, hmeml⟩ :=
    reconLoop_spec hsr hsp core hdist ((mazeGraph m).dist start goal) goal hgk rfl
  have hsub : l ⊆ predKeys preds := fun x hx => (hmeml x hx).1
  have hble : l.length ≤ (predKeys preds).length :=
    (List.subperm_of_subset hnodupl hsub).length_le
  have hplen : (predKeys preds).length = preds.length := List.length_map _ _
  have hrec2 : reconLoop preds (preds.length + 1) goal = some l :=
    reconLoop_mono (by omega) hrecl
  refine ⟨preds, l.reverse, ?_, ?_, ?_, ?_, ?_, ?_⟩
  · rw [hsolve, if_pos hgk]
  · unfold reconstruct_path
    rw [hrec2]
    rfl
  · rw [List.head?_reverse]
    exact hlastl
  · rw [List.getLast?_reverse]
    exact hheadl
  · rw [List.chain'_reverse]
    exact hchainl
  · rw [List.length_reverse]
    exact hlenl

/-- Witness for C2: on the generated 5 × 7 maze, solving from `(1, 1)` to
the game goal `(3, 5)` returns a shortest path. -/
theorem C2_bfs_shortest_path_witness :
    ∃ preds path,
      m46.solve (1, 1) (3, 5) = some preds ∧
      reconstruct_path preds (3, 5) = some path ∧
      path.head? = some ((1 : ℤ), (1 : ℤ)) ∧
      path.getLast? = some ((3 : ℤ), (5 : ℤ)) ∧
      List.Chain' (mazeGraph m46).Adj path ∧
      path.length = (mazeGraph m46).dist (1, 1) (3, 5) + 1 := by
  have h1 : (mazeGraph m46).Adj (1, 1) (1, 2) := by decide
  have h2 : (mazeGraph m46).Adj (1, 2) (1, 3) := by decide
  have h3 : (mazeGraph m46).Adj (1, 3) (1, 4) := by decide
  have h4 : (mazeGraph m46).Adj (1, 4) (1, 5) := by decide
  have h5 : (mazeGraph m46).Adj (1, 5) (2, 5) := by decide
  have h6 : (mazeGraph m46).Adj (2, 5) (3, 5) := by decide
  exact C2_bfs_shortest_path m46 (1, 1) (3, 5) (by decide) (by decide) (by decide)
    (by decide)
    ⟨.cons h1 (.cons h2 (.cons h3 (.cons h4 (.cons h5 (.cons h6 .nil)))))⟩

/-! ### C6 and C7: frame effects of the input handler -/

/-- A junk game state used with `Option.getD`. -/
def junkGame : GameState :=
  { maze := junkMaze, player_pos := (0, 0), goal_pos := (0, 0),
    show_solution := false, solution_path := [] }

/-- The game state of `MazeGame(4, 6)` under `constShuffle`. -/
def g46 : GameState := (mkGame 4 6 constShuffle).getD junkGame

/-- C6: in every playing state (player not on the goal), an arrow-key move
whose target cell reads as a Wall is a no-op: the handler returns the very
same state — maze, player position, goal, solution-visibility flag and
cached solution path all unchanged — and the game stays in play. -/
theorem C6_wall_move_noop (shuffle : ℕ → List (ℤ × ℤ)) (s : GameState) (k : Key)
    (d : ℤ × ℤ) (hk : keyDelta k = some d)
    (hplay : s.player_pos ≠ s.goal_pos)
    (hread : s.maze.read (s.player_pos.1 + d.1) (s.player_pos.2 + d.2) = some 1) :
    handleInput shuffle s k [] = some (some s) := by
  cases k <;> simp_all [handleInput, mainBranch, keyDelta]

/-- Witness for C6: in the initial 5 × 7 game, moving left hits the wall
`(0, 1)` and leaves the state unchanged. -/
theorem C6_wall_move_noop_witness :
    handleInput constShuffle g46 .left [] = some (some g46) :=
  C6_wall_move_noop constShuffle g46 .left (-1, 0) rfl (by decide) (by decide)

/-- C7: in every playing state, the solution toggle flips exactly the
visibility flag: the maze, player position, goal and cached solution path
are returned unchanged (whatever cached value the path holds, so no
recomputation by `solve`/`reconstruct_path` can have occurred). -/
theorem C7_toggle_flips_only (shuffle : ℕ → List (ℤ × ℤ)) (s : GameState)
    (hplay : s.player_pos ≠ s.goal_pos) :
    handleInput shuffle s .keyS [] =
      some (some { s with show_solution := !s.show_solution }) := by
  simp [handleInput, mainBranch, keyDelta, hplay]

/-- Witness for C7: toggling in the initial 5 × 7 game flips only the
flag. -/
theorem C7_toggle_flips_only_witness :
    handleInput constShuffle g46 .keyS [] =
      some (some { g46 with show_solution := !g46.show_solution }) :=
  C7_toggle_flips_only constShuffle g46 (by decide)

/-! ### Graph lemmas for the generator proof -/

theorem mazeGraph_le_update (g : Maze) (v : Cell) :
    mazeGraph g ≤ mazeGraph { g with cells := Function.update g.cells v 0 } := by
  intro p q h
  obtain ⟨h1, h2, h3, h4, h5⟩ := h
  refine ⟨h1, h2, ?_, ?_, h5⟩
  · show Function.update g.cells v 0 p = 0
    by_cases hpv : p = v
    · subst hpv; simp
    · rwa [Function.update_noteq hpv]
  · show Function.update g.cells v 0 q = 0
    by_cases hqv : q = v
    · subst hqv; simp
    · rwa [Function.update_noteq hqv]

/-- No cycle can pass through a vertex that has at most one neighbour. -/
theorem no_cycle_at_unique_nbr {V : Type} {G : SimpleGraph V} {v : V}
    (hnb : ∀ a b, G.Adj v a → G.Adj v b → a = b)
    (w : G.Walk v v) : ¬ w.IsCycle := by
  intro hw
  cases w with
  | nil => exact hw.ne_nil rfl
  | @cons _ b₁ _ hadj p =>
    cases hpr : p.reverse with
    | nil => exact G.loopless _ hadj
    | @cons _ b₂ _ hadj₂ q =>
      have hb : b₂ = b₁ := hnb _ _ hadj₂ hadj
      have hmem : s(v, b₂) ∈ p.reverse.edges := by
        rw [hpr]
        exact List.mem_cons_self _ _
      rw [SimpleGraph.Walk.edges_reverse, List.mem_reverse] at hmem
      have ht := hw.isTrail
      have hnodup := ht.edges_nodup
      rw [SimpleGraph.Walk.edges_cons] at hnodup
      have hnotin := (List.nodup_cons.mp hnodup).1
      rw [hb] at hmem
      exact hnotin hmem

theorem not_mem_cycle_support {V : Type} [DecidableEq V] {G : SimpleGraph V} {v : V}
    (hnb : ∀ a b, G.Adj v a → G.Adj v b → a = b)
    {u : V} {c : G.Walk u u} (hc : c.IsCycle) : v ∉ c.support :=
  fun hv => no_cycle_at_unique_nbr hnb (c.rotate hv) (hc.rotate hv)

/-- Adding a vertex of degree at most one to an acyclic graph keeps it
acyclic. -/
theorem isAcyclic_insert_leaf {V : Type} [DecidableEq V] {G G' : SimpleGraph V}
    {v a : V}
    (hnew : ∀ p q, G'.Adj p q → G.Adj p q ∨ p = v ∨ q = v)
    (hdeg : ∀ b, G'.Adj v b → b = a)
    (hac : G.IsAcyclic) : G'.IsAcyclic := by
  intro u c hc
  have hv : v ∉ c.support :=
    not_mem_cycle_support (fun x y hx hy => (hdeg x hx).trans (hdeg y hy).symm) hc
  have hedges : ∀ e ∈ c.edges, e ∈ G.edgeSet := by
    intro e he
    induction e with
    | _ p q =>
      have hadj : G'.Adj p q := c.edges_subset_edgeSet he
      rcases hnew p q hadj with h | h | h
      · exact h
      · subst h
        exact absurd (c.fst_mem_support_of_mem_edges he) hv
      · subst h
        exact absurd (c.snd_mem_support_of_mem_edges he) hv
  exact hac (c.transfer G hedges) (hc.transfer hedges)

theorem region_update (g : Maze) (f : Cell → ℕ) :
    ({ g with cells := f } : Maze).region = g.region := rfl

theorem passageCount_update {g : Maze} {v : Cell}
    (hvr : v ∈ g.region) (hv1 : g.cells v ≠ 0) :
    ({ g with cells := Function.update g.cells v 0 } : Maze).passageCount =
      g.passageCount + 1 := by
  unfold Maze.passageCount
  rw [region_update]
  have hset : (g.region.filter fun c => Function.update g.cells v 0 c = 0) =
      insert v (g.region.filter fun c => g.cells c = 0) := by
    ext c
    simp only [Finset.mem_filter, Finset.mem_insert]
    by_cases hcv : c = v
    · subst hcv
      simp [hvr]
    · rw [Function.update_noteq hcv]
      simp [hcv]
  rw [hset, Finset.card_insert_of_not_mem]
  simp [hv1]

/-! ### Edge-count bookkeeping for a single carve -/

theorem rightC_adj (c : Cell) : adj1 c (rightC c) := by
  unfold adj1 rightC
  dsimp only
  omega

theorem downC_adj (c : Cell) : adj1 c (downC c) := by
  unfold adj1 downC
  dsimp only
  omega

theorem rightC_inj {c d : Cell} (h : rightC c = rightC d) : c = d := by
  unfold rightC at h
  rw [Prod.mk.injEq] at h
  rw [Prod.ext_iff]
  constructor
  · omega
  · exact h.2

theorem downC_inj {c d : Cell} (h : downC c = downC d) : c = d := by
  unfold downC at h
  rw [Prod.mk.injEq] at h
  rw [Prod.ext_iff]
  constructor
  · exact h.1
  · omega

theorem rightC_not_invol (c : Cell) : rightC (rightC c) ≠ c := by
  unfold rightC
  intro h
  rw [Prod.ext_iff] at h
  dsimp only at h
  omega

theorem downC_not_invol (c : Cell) : downC (downC c) ≠ c := by
  unfold downC
  intro h
  rw [Prod.ext_iff] at h
  dsimp only at h
  omega

/-- Opening the wall `v` whose unique walkable neighbour `a` sits just
before it along direction `N` adds exactly the `(a, v)` edge to the
`N`-edge filter. -/
theorem filter_gain_before {g : Maze} {v a : Cell} (N : Cell → Cell)
    (hN_adj : ∀ c, adj1 c (N c)) (hNN : ∀ c, N (N c) ≠ c)
    (hN_inj : ∀ c d, N c = N d → c = d)
    (hvr : v ∈ g.region) (hv1 : g.cells v ≠ 0)
    (har : a ∈ g.region) (ha0 : g.cells a = 0)
    (huniq : ∀ u, adj1 u v → u ∈ g.region → g.cells u = 0 → u = a)
    (hNa : N a = v) :
    (g.region.filter fun c => Function.update g.cells v 0 c = 0 ∧
        Function.update g.cells v 0 (N c) = 0 ∧ N c ∈ g.region) =
      insert a (g.region.filter fun c => g.cells c = 0 ∧
        g.cells (N c) = 0 ∧ N c ∈ g.region) := by
  have hav : a ≠ v := fun h => hv1 (h ▸ ha0)
  ext c
  simp only [Finset.mem_filter, Finset.mem_insert]
  constructor
  · rintro ⟨hcR, h1, h2, h3⟩
    by_cases hca : c = a
    · exact Or.inl hca
    · right
      by_cases hcv : c = v
      · exfalso
        subst hcv
        have hNv_ne : N c ≠ c := fun h => hNN c (by rw [h, h])
        rw [Function.update_noteq hNv_ne] at h2
        have hca' := huniq (N c) (adj1_symm (hN_adj c)) h3 h2
        apply hNN c
        rw [hca', hNa]
      · rw [Function.update_noteq hcv] at h1
        have hNcv : N c ≠ v := fun h => hca (hN_inj c a (h.trans hNa.symm))
        rw [Function.update_noteq hNcv] at h2
        exact ⟨hcR, h1, h2, h3⟩
  · rintro (rfl | ⟨hcR, h1, h2, h3⟩)
    · refine ⟨har, ?_, ?_, ?_⟩
      · rw [Function.update_noteq hav]
        exact ha0
      · rw [hNa]
        simp
      · rw [hNa]
        exact hvr
    · have hcv : c ≠ v := fun h => hv1 (h ▸ h1)
      have hNcv : N c ≠ v := by
        intro h
        have hca : c = a := hN_inj c a (h.trans hNa.symm)
        rw [hca, hNa] at h2
        exact hv1 h2
      refine ⟨hcR, ?_, ?_, h3⟩
      · rw [Function.update_noteq hcv]
        exact h1
      · rw [Function.update_noteq hNcv]
        exact h2

/-- Opening the wall `v` whose unique walkable neighbour `a` sits just
after it along direction `N` adds exactly the `(v, a)` edge to the
`N`-edge filter. -/
theorem filter_gain_after {g : Maze} {v a : Cell} (N : Cell → Cell)
    (hN_adj : ∀ c, adj1 c (N c)) (hNN : ∀ c, N (N c) ≠ c)
    (hvr : v ∈ g.region) (hv1 : g.cells v ≠ 0)
    (har : a ∈ g.region) (ha0 : g.cells a = 0)
    (huniq : ∀ u, adj1 u v → u ∈ g.region → g.cells u = 0 → u = a)
    (hNv : N v = a) :
    (g.region.filter fun c => Function.update g.cells v 0 c = 0 ∧
        Function.update g.cells v 0 (N c) = 0 ∧ N c ∈ g.region) =
      insert v (g.region.filter fun c => g.cells c = 0 ∧
        g.cells (N c) = 0 ∧ N c ∈ g.region) := by
  have hav : a ≠ v := fun h => hv1 (h ▸ ha0)
  ext c
  simp only [Finset.mem_filter, Finset.mem_insert]
  constructor
  · rintro ⟨hcR, h1, h2, h3⟩
    by_cases hcv : c = v
    · exact Or.inl hcv
    · right
      rw [Function.update_noteq hcv] at h1
      have hNcv : N c ≠ v := by
        intro h
        have hca : c = a := huniq c (h ▸ hN_adj c) hcR h1
        apply hNN v
        rw [hNv, ← hca, h]
      rw [Function.update_noteq hNcv] at h2
      exact ⟨hcR, h1, h2, h3⟩
  · rintro (rfl | ⟨hcR, h1, h2, h3⟩)
    · refine ⟨hvr, by simp, ?_, ?_⟩
      · rw [hNv, Function.update_noteq hav]
        exact ha0
      · rw [hNv]
        exact har
    · have hcv : c ≠ v := fun h => hv1 (h ▸ h1)
      have hNcv : N c ≠ v := fun h => hv1 (h ▸ h2)
      refine ⟨hcR, ?_, ?_, h3⟩
      · rw [Function.update_noteq hcv]
        exact h1
      · rw [Function.update_noteq hNcv]
        exact h2

/-- Opening the wall `v` whose unique walkable neighbour is not along
direction `N` leaves the `N`-edge filter unchanged. -/
theorem filter_unchanged {g : Maze} {v a : Cell} (N : Cell → Cell)
    (hN_adj : ∀ c, adj1 c (N c)) (hNN : ∀ c, N (N c) ≠ c)
    (hv1 : g.cells v ≠ 0)
    (huniq : ∀ u, adj1 u v → u ∈ g.region → g.cells u = 0 → u = a)
    (hNv : N v ≠ a) (hNa : N a ≠ v) :
    (g.region.filter fun c => Function.update g.cells v 0 c = 0 ∧
        Function.update g.cells v 0 (N c) = 0 ∧ N c ∈ g.region) =
      (g.region.filter fun c => g.cells c = 0 ∧
        g.cells (N c) = 0 ∧ N c ∈ g.region) := by
  apply Finset.filter_congr
  intro c hcR
  by_cases hcv : c = v
  · subst hcv
    constructor
    · rintro ⟨h1, h2, h3⟩
      exfalso
      have hNv_ne : N c ≠ c := fun h => hNN c (by rw [h, h])
      rw [Function.update_noteq hNv_ne] at h2
      exact hNv (huniq (N c) (adj1_symm (hN_adj c)) h3 h2)
    · rintro ⟨h1, _, _⟩
      exact absurd h1 hv1
  · by_cases hNcv : N c = v
    · constructor
      · rintro ⟨h1, h2, h3⟩
        rw [Function.update_noteq hcv] at h1
        exfalso
        apply hNa
        rw [← huniq c (hNcv ▸ hN_adj c) hcR h1]
        exact hNcv
      · rintro ⟨h1, h2, h3⟩
        rw [hNcv] at h2
        exact absurd h2 hv1
    · constructor
      · rintro ⟨h1, h2, h3⟩
        rw [Function.update_noteq hcv] at h1
        rw [Function.update_noteq hNcv] at h2
        exact ⟨h1, h2, h3⟩
      · rintro ⟨h1, h2, h3⟩
        refine ⟨?_, ?_, h3⟩
        · rw [Function.update_noteq hcv]
          exact h1
        · rw [Function.update_noteq hNcv]
          exact h2

/-- Opening a wall cell `v` whose unique walkable neighbour is `a` adds
exactly one carved adjacency. -/
theorem edgeCount_update {g : Maze} {v a : Cell}
    (hvr : v ∈ g.region) (hv1 : g.cells v ≠ 0)
    (har : a ∈ g.region) (ha0 : g.cells a = 0) (hadj : adj1 a v)
    (huniq : ∀ u, adj1 u v → u ∈ g.region → g.cells u = 0 → u = a) :
    ({ g with cells := Function.update g.cells v 0 } : Maze).edgeCount =
      g.edgeCount + 1 := by
  have hcases : rightC a = v ∨ rightC v = a ∨ downC a = v ∨ downC v = a := by
    obtain ⟨ax, ay⟩ := a
    obtain ⟨vx, vy⟩ := v
    unfold adj1 at hadj
    dsimp only at hadj
    unfold rightC downC
    simp only [Prod.mk.injEq]
    omega
  have hgoal : ({ g with cells := Function.update g.cells v 0 } : Maze).edgeCount =
      (g.region.filter fun c => Function.update g.cells v 0 c = 0 ∧
        Function.update g.cells v 0 (rightC c) = 0 ∧ rightC c ∈ g.region).card +
      (g.region.filter fun c => Function.update g.cells v 0 c = 0 ∧
        Function.update g.cells v 0 (downC c) = 0 ∧ downC c ∈ g.region).card := rfl
  rw [hgoal]
  unfold Maze.edgeCount
  rcases hcases with hca | hca | hca | hca
  · -- a is left of v: right filter gains a, down filter unchanged
    have hd1 : downC v ≠ a := by
      obtain ⟨ax, ay⟩ := a
      obtain ⟨vx, vy⟩ := v
      unfold rightC at hca
      unfold downC
      simp only [Prod.mk.injEq] at hca
      intro he
      rw [Prod.mk.injEq] at he
      omega
    have hd2 : downC a ≠ v := by
      obtain ⟨ax, ay⟩ := a
      obtain ⟨vx, vy⟩ := v
      unfold rightC at hca
      unfold downC
      simp only [Prod.mk.injEq] at hca
      intro he
      rw [Prod.mk.injEq] at he
      omega
    rw [filter_gain_before rightC rightC_adj rightC_not_invol
        (fun c d => rightC_inj) hvr hv1 har ha0 huniq hca,
      filter_unchanged downC downC_adj downC_not_invol hv1 huniq hd1 hd2,
      Finset.card_insert_of_not_mem]
    · omega
    · simp only [Finset.mem_filter, not_and]
      intro _ _ hrp
      rw [hca] at hrp
      exact absurd hrp hv1
  · -- a is right of v: right filter gains v, down filter unchanged
    have hd1 : downC v ≠ a := by
      obtain ⟨ax, ay⟩ := a
      obtain ⟨vx, vy⟩ := v
      unfold rightC at hca
      unfold downC
      simp only [Prod.mk.injEq] at hca
      intro he
      rw [Prod.mk.injEq] at he
      omega
    have hd2 : downC a ≠ v := by
      obtain ⟨ax, ay⟩ := a
      obtain ⟨vx, vy⟩ := v
      unfold rightC at hca
      unfold downC
      simp only [Prod.mk.injEq] at hca
      intro he
      rw [Prod.mk.injEq] at he
      omega
    rw [filter_gain_after rightC rightC_adj rightC_not_invol
        hvr hv1 har ha0 huniq hca,
      filter_unchanged downC downC_adj downC_not_invol hv1 huniq hd1 hd2,
      Finset.card_insert_of_not_mem]
    · omega
    · simp only [Finset.mem_filter, not_and]
      intro _ hvp
      exact absurd hvp hv1
  · -- a is above v: down filter gains a, right filter unchanged
    have hd1 : rightC v ≠ a := by
      obtain ⟨ax, ay⟩ := a
      obtain ⟨vx, vy⟩ := v
      unfold downC at hca
      unfold rightC
      simp only [Prod.mk.injEq] at hca
      intro he
      rw [Prod.mk.injEq] at he
      omega
    have hd2 : rightC a ≠ v := by
      obtain ⟨ax, ay⟩ := a
      obtain ⟨vx, vy⟩ := v
      unfold downC at hca
      unfold rightC
      simp only [Prod.mk.injEq] at hca
      intro he
      rw [Prod.mk.injEq] at he
      omega
    rw [filter_gain_before downC downC_adj downC_not_invol
        (fun c d => downC_inj) hvr hv1 har ha0 huniq hca,
      filter_unchanged rightC rightC_adj rightC_not_invol hv1 huniq hd1 hd2,
      Finset.card_insert_of_not_mem]
    · omega
    · simp only [Finset.mem_filter, not_and]
      intro _ _ hrp
      rw [hca] at hrp
      exact absurd hrp hv1
  · -- a is below v: down filter gains v, right filter unchanged
    have hd1 : rightC v ≠ a := by
      obtain ⟨ax, ay⟩ := a
      obtain ⟨vx, vy⟩ := v
      unfold downC at hca
      unfold rightC
      simp only [Prod.mk.injEq] at hca
      intro he
      rw [Prod.mk.injEq] at he
      omega
    have hd2 : rightC a ≠ v := by
      obtain ⟨ax, ay⟩ := a
      obtain ⟨vx, vy⟩ := v
      unfold downC at hca
      unfold rightC
      simp only [Prod.mk.injEq] at hca
      intro he
      rw [Prod.mk.injEq] at he
      omega
    rw [filter_gain_after downC downC_adj downC_not_invol
        hvr hv1 har ha0 huniq hca,
      filter_unchanged rightC rightC_adj rightC_not_invol hv1 huniq hd1 hd2,
      Finset.card_insert_of_not_mem]
    · omega
    · simp only [Finset.mem_filter, not_and]
      intro _ hvp
      exact absurd hvp hv1

/-! ### Characterising a successful carve -/

theorem Maze.read_in (m : Maze) {x y : ℤ}
    (hx : 0 ≤ x ∧ x < (m.width : ℤ)) (hy : 0 ≤ y ∧ y < (m.height : ℤ)) :
    m.read x y = some (m.cells (x, y)) := by
  unfold Maze.read pyIdx
  rw [if_pos hy, if_pos hx]
  rfl

theorem Maze.write_in (m : Maze) {x y : ℤ} (v : ℕ)
    (hx : 0 ≤ x ∧ x < (m.width : ℤ)) (hy : 0 ≤ y ∧ y < (m.height : ℤ)) :
    m.write x y v = some { m with cells := Function.update m.cells (x, y) v } := by
  unfold Maze.write pyIdx
  rw [if_pos hy, if_pos hx]
  rfl

/-- The grid contents after carving the neighbour `(x + dx, y + dy)` and
the midpoint wall between it and `(x, y)`. -/
def carvedCells (g : Maze) (x y dx dy : ℤ) : Cell → ℕ :=
  Function.update (Function.update g.cells (x + dx, y + dy) 0)
    (x + dx / 2, y + dy / 2) 0

theorem tryCarve_spec {g : Maze} {x y : ℤ} {g' : Maze} {nb : Cell} :
    ∀ {ds : List (ℤ × ℤ)}, (∀ d ∈ ds, d ∈ genDirs) →
    tryCarve g x y ds = some (some (g', nb)) →
    ∃ dx dy : ℤ, (dx, dy) ∈ genDirs ∧ nb = (x + dx, y + dy) ∧
      1 ≤ x + dx ∧ x + dx < (g.width : ℤ) - 1 ∧
      1 ≤ y + dy ∧ y + dy < (g.height : ℤ) - 1 ∧
      g.cells (x + dx, y + dy) = 1 ∧
      g' = { g with cells := carvedCells g x y dx dy } := by
  intro ds
  induction ds with
  | nil => intro _ h; simp [tryCarve] at h
  | cons d rest ih =>
    intro hds h
    obtain ⟨dx, dy⟩ := d
    have hd : ((dx, dy) : ℤ × ℤ) ∈ genDirs := hds _ (List.mem_cons_self _ _)
    have hd4 : (dx = 0 ∧ dy = -2) ∨ (dx = 0 ∧ dy = 2) ∨
        (dx = 2 ∧ dy = 0) ∨ (dx = -2 ∧ dy = 0) := by
      simpa [genDirs, Prod.mk.injEq] using hd
    unfold tryCarve at h
    dsimp only at h
    by_cases hb : 1 ≤ x + dx ∧ x + dx < (g.width : ℤ) - 1 ∧
        1 ≤ y + dy ∧ y + dy < (g.height : ℤ) - 1
    · rw [if_pos hb] at h
      rw [g.read_in ⟨by omega, by omega⟩ ⟨by omega, by omega⟩] at h
      dsimp only at h
      by_cases hw1 : g.cells (x + dx, y + dy) = 1
      · rw [if_pos hw1] at h
        rw [g.write_in 0 ⟨by omega, by omega⟩ ⟨by omega, by omega⟩] at h
        dsimp only at h
        rw [Maze.write_in _ 0
          (by show 0 ≤ x + dx / 2 ∧ x + dx / 2 < (g.width : ℤ); omega)
          (by show 0 ≤ y + dy / 2 ∧ y + dy / 2 < (g.height : ℤ); omega)] at h
        dsimp only at h
        simp only [Option.some.injEq, Prod.mk.injEq] at h
        obtain ⟨hg, hnb2⟩ := h
        refine ⟨dx, dy, hd, hnb2.symm, hb.1, hb.2.1, hb.2.2.1, hb.2.2.2, hw1, ?_⟩
        rw [← hg]
        rfl
      · rw [if_neg hw1] at h
        exact ih (fun d hd' => hds d (List.mem_cons_of_mem _ hd')) h
    · rw [if_neg hb] at h
      exact ih (fun d hd' => hds d (List.mem_cons_of_mem _ hd')) h

/-! ### The generator invariant -/

/-- Strict interior of the grid: where carve targets may lie. -/
def Maze.interior (m : Maze) (c : Cell) : Prop :=
  1 ≤ c.1 ∧ c.1 ≤ (m.width : ℤ) - 2 ∧ 1 ≤ c.2 ∧ c.2 ≤ (m.height : ℤ) - 2

theorem interior_mem_region {m : Maze} {c : Cell} (h : m.interior c) :
    c ∈ m.region := by
  obtain ⟨h1, h2, h3, h4⟩ := h
  rw [mem_region]
  omega

/-- The invariant of the carving loop: passages sit in the interior, never
on even-even coordinates; a passage with one even coordinate is a carved
midpoint whose two flanking cells are passages; stack entries are odd-odd
passage cells; every passage is reachable from the start; the passage graph
is a tree (count identity plus acyclicity). -/
structure GenInv (g : Maze) (stack : List Cell) : Prop where
  passInt : ∀ c, g.cells c = 0 → g.interior c
  notEvenEven : ∀ c : Cell, g.cells c = 0 → ¬(c.1 % 2 = 0 ∧ c.2 % 2 = 0)
  midH : ∀ c : Cell, g.cells c = 0 → c.1 % 2 = 0 →
      g.cells (c.1 - 1, c.2) = 0 ∧ g.cells (c.1 + 1, c.2) = 0
  midV : ∀ c : Cell, g.cells c = 0 → c.2 % 2 = 0 →
      g.cells (c.1, c.2 - 1) = 0 ∧ g.cells (c.1, c.2 + 1) = 0
  stackPass : ∀ c ∈ stack, g.cells c = 0 ∧ c.1 % 2 = 1 ∧ c.2 % 2 = 1
  startPass : g.cells (1, 1) = 0
  reach : ∀ c, g.cells c = 0 → (mazeGraph g).Reachable (1, 1) c
  count : g.passageCount = g.edgeCount + 1
  acyc : (mazeGraph g).IsAcyclic

/-- Opening a wall whose walkable neighbours are at most `{a}` preserves
acyclicity of the passage graph. -/
theorem isAcyclic_update {g : Maze} {v a : Cell}
    (hv1 : g.cells v ≠ 0)
    (huniq : ∀ u, adj1 u v → u ∈ g.region → g.cells u = 0 → u = a)
    (hac : (mazeGraph g).IsAcyclic) :
    (mazeGraph { g with cells := Function.update g.cells v 0 }).IsAcyclic := by
  have hnew : ∀ p q, (mazeGraph { g with cells := Function.update g.cells v 0 }).Adj p q →
      (mazeGraph g).Adj p q ∨ p = v ∨ q = v := by
    intro p q h
    obtain ⟨h1, h2, h3, h4, h5⟩ := h
    by_cases hpv : p = v
    · exact Or.inr (Or.inl hpv)
    · by_cases hqv : q = v
      · exact Or.inr (Or.inr hqv)
      · left
        have h3' : g.cells p = 0 := by
          have h3'' : Function.update g.cells v 0 p = 0 := h3
          rwa [Function.update_noteq hpv] at h3''
        have h4' : g.cells q = 0 := by
          have h4'' : Function.update g.cells v 0 q = 0 := h4
          rwa [Function.update_noteq hqv] at h4''
        exact ⟨h1, h2, h3', h4', h5⟩
  have hdeg : ∀ b, (mazeGraph { g with cells := Function.update g.cells v 0 }).Adj v b →
      b = a := by
    intro b h
    obtain ⟨h1, h2, h3, h4, h5⟩ := h
    have hbv : b ≠ v := by
      intro hb
      subst hb
      exact adj1_irrefl b h5
    have h4' : g.cells b = 0 := by
      have h4'' : Function.update g.cells v 0 b = 0 := h4
      rwa [Function.update_noteq hbv] at h4''
    exact huniq b (adj1_symm h5) h2 h4'
  exact isAcyclic_insert_leaf hnew hdeg hac

/-- The intermediate maze with only the midpoint wall opened. -/
def midOpened (g : Maze) (x y dx dy : ℤ) : Maze :=
  { g with cells := Function.update g.cells (x + dx / 2, y + dy / 2) 0 }

/-- The carved grid contents, midpoint update innermost. -/
def carvedCellsSw (g : Maze) (x y dx dy : ℤ) : Cell → ℕ :=
  Function.update (Function.update g.cells (x + dx / 2, y + dy / 2) 0)
    (x + dx, y + dy) 0

set_option maxHeartbeats 2000000 in
theorem carve_step {g g' : Maze} {x y : ℤ} {nb : Cell} {rest : List Cell}
    {ds : List (ℤ × ℤ)}
    (hds : ∀ d ∈ ds, d ∈ genDirs)
    (inv : GenInv g ((x, y) :: rest))
    (hc : tryCarve g x y ds = some (some (g', nb))) :
    GenInv g' (nb :: (x, y) :: rest) := by
  obtain ⟨dx, dy, hd, hnbe, hb1, hb2, hb3, hb4, hwall, hge⟩ := tryCarve_spec hds hc
  subst hnbe
  subst hge
  have hd4 : (dx = 0 ∧ dy = -2) ∨ (dx = 0 ∧ dy = 2) ∨
      (dx = 2 ∧ dy = 0) ∨ (dx = -2 ∧ dy = 0) := by
    simpa [genDirs, Prod.mk.injEq] using hd
  obtain ⟨hcur0, hxodd, hyodd⟩ := inv.stackPass (x, y) (List.mem_cons_self _ _)
  have hcint : g.interior (x, y) := inv.passInt _ hcur0
  unfold Maze.interior at hcint
  dsimp only at hcint
  have hmid_ne_nb : ((x + dx / 2 : ℤ), (y + dy / 2 : ℤ)) ≠ (x + dx, y + dy) := by
    intro he
    rw [Prod.mk.injEq] at he
    omega
  have hnb_ne_mid : ((x + dx : ℤ), (y + dy : ℤ)) ≠ (x + dx / 2, y + dy / 2) :=
    fun he => hmid_ne_nb he.symm
  have hcur_ne_mid : ((x : ℤ), (y : ℤ)) ≠ (x + dx / 2, y + dy / 2) := by
    intro he
    rw [Prod.mk.injEq] at he
    omega
  have hcur_ne_nb : ((x : ℤ), (y : ℤ)) ≠ (x + dx, y + dy) := by
    intro he
    rw [Prod.mk.injEq] at he
    omega
  have hmidwall : g.cells (x + dx / 2, y + dy / 2) ≠ 0 := by
    intro h0
    by_cases hdx : dx = 0
    · have hflank := inv.midV (x + dx / 2, y + dy / 2) h0 (by dsimp only; omega)
      dsimp only at hflank
      have hcase : ((x + dx : ℤ), (y + dy : ℤ)) = (x + dx / 2, y + dy / 2 - 1) ∨
          ((x + dx : ℤ), (y + dy : ℤ)) = (x + dx / 2, y + dy / 2 + 1) := by
        rw [Prod.mk.injEq, Prod.mk.injEq]
        omega
      rcases hcase with he | he <;> rw [he] at hwall <;> omega
    · have hflank := inv.midH (x + dx / 2, y + dy / 2) h0 (by dsimp only; omega)
      dsimp only at hflank
      have hcase : ((x + dx : ℤ), (y + dy : ℤ)) = (x + dx / 2 - 1, y + dy / 2) ∨
          ((x + dx : ℤ), (y + dy : ℤ)) = (x + dx / 2 + 1, y + dy / 2) := by
        rw [Prod.mk.injEq, Prod.mk.injEq]
        omega
      rcases hcase with he | he <;> rw [he] at hwall <;> omega
  have hmid_reg : ((x + dx / 2 : ℤ), (y + dy / 2 : ℤ)) ∈ g.region := by
    rw [mem_region]
    dsimp only
    omega
  have hcur_reg : ((x : ℤ), (y : ℤ)) ∈ g.region := interior_mem_region (inv.passInt _ hcur0)
  have hnb_reg : ((x + dx : ℤ), (y + dy : ℤ)) ∈ g.region := by
    rw [mem_region]
    dsimp only
    omega
  have hadj_cur_mid : adj1 (x, y) (x + dx / 2, y + dy / 2) := by
    unfold adj1
    dsimp only
    omega
  have hadj_mid_nb : adj1 (x + dx / 2, y + dy / 2) (x + dx, y + dy) := by
    unfold adj1
    dsimp only
    omega
  have huniq_mid : ∀ u : Cell, adj1 u (x + dx / 2, y + dy / 2) → u ∈ g.region →
      g.cells u = 0 → u = (x, y) := by
    intro u hu hur hup
    by_contra hne
    have hsplit : u = ((x + dx : ℤ), (y + dy : ℤ)) ∨ (u.1 % 2 = 0 ∧ u.2 % 2 = 0) := by
      obtain ⟨ux, uy⟩ := u
      unfold adj1 at hu
      dsimp only at hu ⊢
      simp only [ne_eq, Prod.mk.injEq, not_and] at hne
      rw [Prod.mk.injEq]
      omega
    rcases hsplit with rfl | hee
    · omega
    · exact inv.notEvenEven u hup hee
  have hnbodd : (x + dx) % 2 = 1 ∧ (y + dy) % 2 = 1 := by omega
  have huniq_nb : ∀ u : Cell, adj1 u (x + dx, y + dy) → u ∈ g.region →
      g.cells u = 0 → u = (x + dx / 2, y + dy / 2) := by
    intro u hu hur hup
    exfalso
    obtain ⟨ux, uy⟩ := u
    have hsplit : (ux % 2 = 0 ∧ uy = y + dy ∧
          (ux - 1 = x + dx ∨ ux + 1 = x + dx)) ∨
        (uy % 2 = 0 ∧ ux = x + dx ∧
          (uy - 1 = y + dy ∨ uy + 1 = y + dy)) := by
      unfold adj1 at hu
      dsimp only at hu
      omega
    rcases hsplit with ⟨hev, he2, hor⟩ | ⟨hev, he2, hor⟩
    · have hfl := inv.midH (ux, uy) hup hev
      dsimp only at hfl
      rcases hor with he | he
      · have heq : ((ux - 1 : ℤ), uy) = ((x + dx : ℤ), (y + dy : ℤ)) := by
          rw [Prod.mk.injEq]
          omega
        rw [heq] at hfl
        omega
      · have heq : ((ux + 1 : ℤ), uy) = ((x + dx : ℤ), (y + dy : ℤ)) := by
          rw [Prod.mk.injEq]
          omega
        rw [heq] at hfl
        omega
    · have hfl := inv.midV (ux, uy) hup hev
      dsimp only at hfl
      rcases hor with he | he
      · have heq : (ux, (uy - 1 : ℤ)) = ((x + dx : ℤ), (y + dy : ℤ)) := by
          rw [Prod.mk.injEq]
          omega
        rw [heq] at hfl
        omega
      · have heq : (ux, (uy + 1 : ℤ)) = ((x + dx : ℤ), (y + dy : ℤ)) := by
          rw [Prod.mk.injEq]
          omega
        rw [heq] at hfl
        omega
  -- counting and acyclicity through the two single-cell openings
  have hpc1 : (midOpened g x y dx dy).passageCount = g.passageCount + 1 :=
    passageCount_update hmid_reg hmidwall
  have hec1 : (midOpened g x y dx dy).edgeCount = g.edgeCount + 1 :=
    edgeCount_update hmid_reg hmidwall hcur_reg hcur0 hadj_cur_mid huniq_mid
  have hac1 : (mazeGraph (midOpened g x y dx dy)).IsAcyclic :=
    isAcyclic_update hmidwall huniq_mid inv.acyc
  -- facts about the intermediate maze
  have hgm_nb_wall : (midOpened g x y dx dy).cells (x + dx, y + dy) ≠ 0 := by
    show Function.update g.cells (x + dx / 2, y + dy / 2) 0 (x + dx, y + dy) ≠ 0
    rw [Function.update_noteq hnb_ne_mid]
    omega
  have hgm_mid0 : (midOpened g x y dx dy).cells (x + dx / 2, y + dy / 2) = 0 := by
    show Function.update g.cells (x + dx / 2, y + dy / 2) 0 (x + dx / 2, y + dy / 2) = 0
    simp
  have hgm_cells : ∀ u : Cell, u ≠ (x + dx / 2, y + dy / 2) →
      (midOpened g x y dx dy).cells u = g.cells u := by
    intro u hu
    show Function.update g.cells (x + dx / 2, y + dy / 2) 0 u = g.cells u
    rw [Function.update_noteq hu]
  have huniq_nb' : ∀ u : Cell, adj1 u (x + dx, y + dy) →
      u ∈ (midOpened g x y dx dy).region →
      (midOpened g x y dx dy).cells u = 0 → u = (x + dx / 2, y + dy / 2) := by
    intro u hu hur hup
    by_cases hum : u = (x + dx / 2, y + dy / 2)
    · exact hum
    · rw [hgm_cells u hum] at hup
      exact huniq_nb u hu hur hup
  have hpc2 : ({ g with cells := carvedCellsSw g x y dx dy } : Maze).passageCount =
      (midOpened g x y dx dy).passageCount + 1 :=
    @passageCount_update (midOpened g x y dx dy) (x + dx, y + dy) hnb_reg hgm_nb_wall
  have hec2 : ({ g with cells := carvedCellsSw g x y dx dy } : Maze).edgeCount =
      (midOpened g x y dx dy).edgeCount + 1 :=
    @edgeCount_update (midOpened g x y dx dy) (x + dx, y + dy) (x + dx / 2, y + dy / 2)
      hnb_reg hgm_nb_wall hmid_reg hgm_mid0 hadj_mid_nb huniq_nb'
  have hac2 : (mazeGraph ({ g with cells := carvedCellsSw g x y dx dy } : Maze)).IsAcyclic :=
    isAcyclic_update hgm_nb_wall huniq_nb' hac1
  -- rewrite the goal to the midpoint-innermost form
  have hcc : carvedCells g x y dx dy = carvedCellsSw g x y dx dy := by
    unfold carvedCells carvedCellsSw
    rw [Function.update_comm hnb_ne_mid]
  rw [hcc]
  -- cell-level description of the carved maze
  have hgf_nb : carvedCellsSw g x y dx dy (x + dx, y + dy) = 0 := by
    unfold carvedCellsSw
    simp
  have hgf_mid : carvedCellsSw g x y dx dy (x + dx / 2, y + dy / 2) = 0 := by
    unfold carvedCellsSw
    rw [Function.update_noteq hmid_ne_nb]
    simp
  have hgf_char : ∀ u : Cell, u ≠ (x + dx, y + dy) → u ≠ (x + dx / 2, y + dy / 2) →
      carvedCellsSw g x y dx dy u = g.cells u := by
    intro u h1 h2
    unfold carvedCellsSw
    rw [Function.update_noteq h1, Function.update_noteq h2]
  have hgf_mono : ∀ u : Cell, g.cells u = 0 → carvedCellsSw g x y dx dy u = 0 := by
    intro u hu
    by_cases h1 : u = (x + dx, y + dy)
    · rw [h1]
      exact hgf_nb
    · by_cases h2 : u = (x + dx / 2, y + dy / 2)
      · rw [h2]
        exact hgf_mid
      · rw [hgf_char u h1 h2]
        exact hu
  have hgf_iff : ∀ u : Cell, carvedCellsSw g x y dx dy u = 0 ↔
      (u = ((x + dx : ℤ), (y + dy : ℤ)) ∨ u = ((x + dx / 2 : ℤ), (y + dy / 2 : ℤ)) ∨
        g.cells u = 0) := by
    intro u
    constructor
    · intro h
      by_cases h1 : u = ((x + dx : ℤ), (y + dy : ℤ))
      · exact Or.inl h1
      · by_cases h2 : u = ((x + dx / 2 : ℤ), (y + dy / 2 : ℤ))
        · exact Or.inr (Or.inl h2)
        · rw [hgf_char u h1 h2] at h
          exact Or.inr (Or.inr h)
    · rintro (rfl | rfl | h)
      · exact hgf_nb
      · exact hgf_mid
      · exact hgf_mono u h
  -- monotone graph inclusions
  have hle1 : mazeGraph g ≤ mazeGraph (midOpened g x y dx dy) :=
    mazeGraph_le_update g (x + dx / 2, y + dy / 2)
  have hle2 : mazeGraph (midOpened g x y dx dy) ≤
      mazeGraph ({ g with cells := carvedCellsSw g x y dx dy } : Maze) :=
    mazeGraph_le_update (midOpened g x y dx dy) (x + dx, y + dy)
  have hle : mazeGraph g ≤ mazeGraph ({ g with cells := carvedCellsSw g x y dx dy } : Maze) :=
    le_trans hle1 hle2
  refine ⟨?_, ?_, ?_, ?_, ?_, ?_, ?_, ?_, ?_⟩
  · -- passInt
    intro c h0
    rcases (hgf_iff c).mp h0 with rfl | rfl | hold
    · show (1 ≤ x + dx ∧ x + dx ≤ (g.width : ℤ) - 2 ∧
        1 ≤ y + dy ∧ y + dy ≤ (g.height : ℤ) - 2)
      omega
    · show (1 ≤ x + dx / 2 ∧ x + dx / 2 ≤ (g.width : ℤ) - 2 ∧
        1 ≤ y + dy / 2 ∧ y + dy / 2 ≤ (g.height : ℤ) - 2)
      omega
    · have := inv.passInt c hold
      unfold Maze.interior at this ⊢
      exact this
  · -- notEvenEven
    intro c h0
    rcases (hgf_iff c).mp h0 with rfl | rfl | hold
    · dsimp only
      omega
    · dsimp only
      omega
    · exact inv.notEvenEven c hold
  · -- midH
    intro c h0 hev
    rcases (hgf_iff c).mp h0 with rfl | rfl | hold
    · dsimp only at hev
      omega
    · dsimp only at hev ⊢
      have hfl1 : ((x + dx / 2 - 1 : ℤ), (y + dy / 2 : ℤ)) = (x, y) ∨
          ((x + dx / 2 - 1 : ℤ), (y + dy / 2 : ℤ)) = ((x + dx : ℤ), (y + dy : ℤ)) := by
        rw [Prod.mk.injEq, Prod.mk.injEq]
        omega
      have hfl2 : ((x + dx / 2 + 1 : ℤ), (y + dy / 2 : ℤ)) = (x, y) ∨
          ((x + dx / 2 + 1 : ℤ), (y + dy / 2 : ℤ)) = ((x + dx : ℤ), (y + dy : ℤ)) := by
        rw [Prod.mk.injEq, Prod.mk.injEq]
        omega
      constructor
      · rcases hfl1 with he | he <;> rw [he]
        · exact hgf_mono _ hcur0
        · exact hgf_nb
      · rcases hfl2 with he | he <;> rw [he]
        · exact hgf_mono _ hcur0
        · exact hgf_nb
    · have hfl := inv.midH c hold hev
      exact ⟨hgf_mono _ hfl.1, hgf_mono _ hfl.2⟩
  · -- midV
    intro c h0 hev
    rcases (hgf_iff c).mp h0 with rfl | rfl | hold
    · dsimp only at hev
      omega
    · dsimp only at hev ⊢
      have hfl1 : ((x + dx / 2 : ℤ), (y + dy / 2 - 1 : ℤ)) = (x, y) ∨
          ((x + dx / 2 : ℤ), (y + dy / 2 - 1 : ℤ)) = ((x + dx : ℤ), (y + dy : ℤ)) := by
        rw [Prod.mk.injEq, Prod.mk.injEq]
        omega
      have hfl2 : ((x + dx / 2 : ℤ), (y + dy / 2 + 1 : ℤ)) = (x, y) ∨
          ((x + dx / 2 : ℤ), (y + dy / 2 + 1 : ℤ)) = ((x + dx : ℤ), (y + dy : ℤ)) := by
        rw [Prod.mk.injEq, Prod.mk.injEq]
        omega
      constructor
      · rcases hfl1 with he | he <;> rw [he]
        · exact hgf_mono _ hcur0
        · exact hgf_nb
      · rcases hfl2 with he | he <;> rw [he]
        · exact hgf_mono _ hcur0
        · exact hgf_nb
    · have hfl := inv.midV c hold hev
      exact ⟨hgf_mono _ hfl.1, hgf_mono _ hfl.2⟩
  · -- stackPass
    intro c hcmem
    rcases List.mem_cons.mp hcmem with rfl | hcmem'
    · exact ⟨hgf_nb, by dsimp only; omega, by dsimp only; omega⟩
    · obtain ⟨hp, ho1, ho2⟩ := inv.stackPass c hcmem'
      exact ⟨hgf_mono c hp, ho1, ho2⟩
  · -- startPass
    exact hgf_mono _ inv.startPass
  · -- reach
    intro c h0
    have hcur_reach : (mazeGraph ({ g with cells := carvedCellsSw g x y dx dy } : Maze)).Reachable
        (1, 1) (x, y) := (inv.reach _ hcur0).mono hle
    have hadj_cm : (mazeGraph ({ g with cells := carvedCellsSw g x y dx dy } : Maze)).Adj
        (x, y) (x + dx / 2, y + dy / 2) :=
      ⟨hcur_reg, hmid_reg, hgf_mono _ hcur0, hgf_mid, hadj_cur_mid⟩
    have hadj_mn : (mazeGraph ({ g with cells := carvedCellsSw g x y dx dy } : Maze)).Adj
        (x + dx / 2, y + dy / 2) (x + dx, y + dy) :=
      ⟨hmid_reg, hnb_reg, hgf_mid, hgf_nb, hadj_mid_nb⟩
    rcases (hgf_iff c).mp h0 with rfl | rfl | hold
    · exact (hcur_reach.trans hadj_cm.reachable).trans hadj_mn.reachable
    · exact hcur_reach.trans hadj_cm.reachable
    · exact (inv.reach c hold).mono hle
  · -- count
    have := inv.count
    omega
  · -- acyc
    exact hac2

/-- Popping an exhausted stack entry preserves the invariant. -/
theorem pop_step {g : Maze} {c : Cell} {rest : List Cell}
    (inv : GenInv g (c :: rest)) : GenInv g rest :=
  ⟨inv.passInt, inv.notEvenEven, inv.midH, inv.midV,
    fun d hd => inv.stackPass d (List.mem_cons_of_mem _ hd),
    inv.startPass, inv.reach, inv.count, inv.acyc⟩

/-- The carving loop preserves the invariant down to the empty stack. -/
theorem genLoop_inv {s : ℕ → List (ℤ × ℤ)} (hs : ∀ n, ∀ d ∈ s n, d ∈ genDirs) :
    ∀ {fuel i : ℕ} {g gfin : Maze} {stack : List Cell},
    GenInv g stack → genLoop s fuel i g stack = some gfin → GenInv gfin [] := by
  intro fuel
  induction fuel with
  | zero =>
    intro i g gfin stack inv h
    cases stack with
    | nil => cases h; exact inv
    | cons c r => exact absurd h (by simp [genLoop])
  | succ k ih =>
    intro i g gfin stack inv h
    cases stack with
    | nil => cases h; exact inv
    | cons c r =>
      obtain ⟨cx, cy⟩ := c
      unfold genLoop at h
      cases hc : tryCarve g cx cy (s i) with
      | none => rw [hc] at h; exact absurd h (by simp)
      | some o =>
        rw [hc] at h
        cases o with
        | none => exact ih (pop_step inv) h
        | some p =>
          obtain ⟨m', nb⟩ := p
          exact ih (carve_step (hs i) inv hc) h

/-- The invariant holds after the start cell is marked. -/
theorem genInv_init (w h : ℕ) (hw : 3 ≤ w) (hh : 3 ≤ h) :
    GenInv { width := w, height := h,
             cells := Function.update (fun _ => 1) ((1 : ℤ), (1 : ℤ)) 0 } [(1, 1)] := by
  set g : Maze := { width := w, height := h, cells := Function.update (fun _ => 1) ((1 : ℤ), (1 : ℤ)) 0 } with hg
  have hcell : ∀ u : Cell, g.cells u = 0 ↔ u = (1, 1) := by
    intro u
    show Function.update (fun _ => 1) ((1 : ℤ), (1 : ℤ)) 0 u = 0 ↔ u = (1, 1)
    by_cases hu : u = (1, 1)
    · subst hu
      simp
    · rw [Function.update_noteq hu]
      exact iff_of_false (by simp) hu
  have hireg : ((1 : ℤ), (1 : ℤ)) ∈ g.region := by
    rw [mem_region]
    show (0 : ℤ) ≤ 1 ∧ (1 : ℤ) < (w : ℤ) ∧ (0 : ℤ) ≤ 1 ∧ (1 : ℤ) < (h : ℤ)
    omega
  refine ⟨?_, ?_, ?_, ?_, ?_, ?_, ?_, ?_, ?_⟩
  · intro c h0
    rw [hcell c] at h0
    subst h0
    show (1 : ℤ) ≤ 1 ∧ (1 : ℤ) ≤ (w : ℤ) - 2 ∧ (1 : ℤ) ≤ 1 ∧ (1 : ℤ) ≤ (h : ℤ) - 2
    omega
  · intro c h0
    rw [hcell c] at h0
    subst h0
    dsimp only
    omega
  · intro c h0 hev
    rw [hcell c] at h0
    subst h0
    dsimp only at hev
    omega
  · intro c h0 hev
    rw [hcell c] at h0
    subst h0
    dsimp only at hev
    omega
  · intro c hcmem
    rw [List.mem_singleton] at hcmem
    subst hcmem
    exact ⟨(hcell _).mpr rfl, by dsimp only; omega, by dsimp only; omega⟩
  · exact (hcell _).mpr rfl
  · intro c h0
    rw [hcell c] at h0
    subst h0
    exact SimpleGraph.Reachable.refl _
  · have hpass : (g.region.filter fun c => g.cells c = 0) = {((1 : ℤ), (1 : ℤ))} := by
      ext c
      simp only [Finset.mem_filter, Finset.mem_singleton, hcell c]
      constructor
      · exact fun hx => hx.2
      · rintro rfl
        exact ⟨hireg, rfl⟩
    have her : (g.region.filter fun c =>
        g.cells c = 0 ∧ g.cells (rightC c) = 0 ∧ rightC c ∈ g.region) = ∅ := by
      rw [Finset.filter_eq_empty_iff]
      rintro c _ ⟨h1, h2, _⟩
      rw [hcell] at h1 h2
      subst h1
      rw [Prod.ext_iff] at h2
      unfold rightC at h2
      dsimp only at h2
      omega
    have hed : (g.region.filter fun c =>
        g.cells c = 0 ∧ g.cells (downC c) = 0 ∧ downC c ∈ g.region) = ∅ := by
      rw [Finset.filter_eq_empty_iff]
      rintro c _ ⟨h1, h2, _⟩
      rw [hcell] at h1 h2
      subst h1
      rw [Prod.ext_iff] at h2
      unfold downC at h2
      dsimp only at h2
      omega
    unfold Maze.passageCount Maze.edgeCount
    rw [hpass, her, hed]
    simp
  · intro u c hc
    cases c with
    | nil => exact hc.ne_nil rfl
    | cons hadj p =>
      obtain ⟨_, _, h3, h4, h5⟩ := hadj
      rw [hcell] at h3 h4
      subst h3
      rename_i b _
      rw [h4] at h5
      exact adj1_irrefl _ h5

/-- C1: for every maze the generator produces (both post-rounding dimensions
at least 3, each per-iteration direction list a permutation of the source's
four directions), the in-grid passage cells with 4-directional
passage-to-passage adjacency form a tree: every passage cell is reachable
from `(1, 1)`, the number of passage cells equals the number of carved
adjacencies plus one, and there is exactly one simple path between every
pair of passage cells. -/
theorem C1_perfect_maze (W H : ℕ) (shuffle : ℕ → List (ℤ × ℤ))
    (hodd : 3 ≤ oddify W ∧ 3 ≤ oddify H)
    (hsh : ∀ n, (shuffle n).Perm genDirs)
    (m : Maze) (hm : mkMaze W H shuffle = some m) :
    (∀ c, m.cells c = 0 → (mazeGraph m).Reachable (1, 1) c) ∧
    m.passageCount = m.edgeCount + 1 ∧
    ∀ u v : Cell, m.cells u = 0 → m.cells v = 0 →
      ∃! p : (mazeGraph m).Walk u v, p.IsPath := by
  unfold mkMaze Maze.generate at hm
  rw [Maze.write_in _ 0
    (by show (0 : ℤ) ≤ 1 ∧ (1 : ℤ) < (oddify W : ℤ); omega)
    (by show (0 : ℤ) ≤ 1 ∧ (1 : ℤ) < (oddify H : ℤ); omega)] at hm
  dsimp only at hm
  have hinv := genInv_init (oddify W) (oddify H) hodd.1 hodd.2
  have hfin := genLoop_inv (fun n d hd => (hsh n).mem_iff.mp hd) hinv hm
  refine ⟨hfin.reach, hfin.count, ?_⟩
  intro u v hu hv
  have hreach : (mazeGraph m).Reachable u v :=
    (hfin.reach u hu).symm.trans (hfin.reach v hv)
  obtain ⟨wlk⟩ := hreach
  refine ⟨wlk.toPath, wlk.toPath.2, ?_⟩
  intro q hq
  have huniq := SimpleGraph.isAcyclic_iff_path_unique.mp hfin.acyc ⟨q, hq⟩ wlk.toPath
  exact congrArg Subtype.val huniq

/-- Witness for C1: the generated 5 × 7 maze is a tree. -/
theorem C1_perfect_maze_witness :
    (∀ c, m46.cells c = 0 → (mazeGraph m46).Reachable (1, 1) c) ∧
    m46.passageCount = m46.edgeCount + 1 ∧
    ∀ u v : Cell, m46.cells u = 0 → m46.cells v = 0 →
      ∃! p : (mazeGraph m46).Walk u v, p.IsPath :=
  C1_perfect_maze 4 6 constShuffle (by decide) (fun n => List.Perm.refl _) m46 (by rfl)

/-! ### C10: the reachable-game-state invariant -/

/-- A successful checked write changes one cell to `v` and nothing else. -/
theorem Maze.write_vals {m m' : Maze} {x y : ℤ} {v : ℕ}
    (h : m.write x y v = some m') :
    ∀ c : Cell, m'.cells c = v ∨ m'.cells c = m.cells c := by
  unfold Maze.write at h
  cases hy : pyIdx m.height y with
  | none => simp [hy] at h
  | some ry =>
    cases hx : pyIdx m.width x with
    | none => simp [hy, hx] at h
    | some rx =>
      simp only [hy, hx, Option.bind_eq_bind, Option.some_bind, pure] at h
      cases h
      intro c
      by_cases hc : c = (rx, ry)
      · subst hc
        left
        exact Function.update_same _ _ _
      · right
        exact Function.update_noteq hc _ _

/-- A successful carve writes only passage values. -/
theorem tryCarve_vals {m : Maze} {x y : ℤ} {m' : Maze} {nb : Cell} :
    ∀ {ds : List (ℤ × ℤ)}, tryCarve m x y ds = some (some (m', nb)) →
    ∀ c : Cell, m'.cells c = 0 ∨ m'.cells c = m.cells c := by
  intro ds
  induction ds with
  | nil => intro h; simp [tryCarve] at h
  | cons d rest ih =>
    intro h
    obtain ⟨dx, dy⟩ := d
    unfold tryCarve at h
    dsimp only at h
    split at h
    · split at h
      · exact absurd h (by simp)
      · split at h
        · split at h
          · exact absurd h (by simp)
          · rename_i m1 hw1
            split at h
            · exact absurd h (by simp)
            · rename_i m2 hw2
              simp only [Option.some.injEq] at h
              cases h
              intro c
              rcases Maze.write_vals hw2 c with h2 | h2
              · left; exact h2
              · rcases Maze.write_vals hw1 c with h1 | h1
                · left; rw [h2]; exact h1
                · right; rw [h2]; exact h1
        · exact ih h
    · exact ih h

/-- The carving loop writes only passage values. -/
theorem genLoop_vals {s : ℕ → List (ℤ × ℤ)} :
    ∀ {fuel i : ℕ} {m m' : Maze} {st : List Cell},
    genLoop s fuel i m st = some m' →
    ∀ c : Cell, m'.cells c = 0 ∨ m'.cells c = m.cells c := by
  intro fuel
  induction fuel with
  | zero =>
    intro i m m' st h
    cases st with
    | nil => cases h; intro c; right; rfl
    | cons c rest => simp [genLoop] at h
  | succ n ih =>
    intro i m m' st h
    cases st with
    | nil => cases h; intro c; right; rfl
    | cons c rest =>
      obtain ⟨x, y⟩ := c
      unfold genLoop at h
      cases hc : tryCarve m x y (s i) with
      | none => rw [hc] at h; exact absurd h (by simp)
      | some o =>
        rw [hc] at h
        cases o with
        | none => exact ih h
        | some p =>
          obtain ⟨m1, nb⟩ := p
          intro c
          rcases ih h c with h2 | h2
          · left; exact h2
          · rcases tryCarve_vals hc c with h1 | h1
            · left; rw [h2]; exact h1
            · right; rw [h2]; exact h1

/-- A maze the constructor returns satisfies the generator invariant with an
empty stack, and its grid holds only the values `0` and `1`. -/
theorem mkMaze_inv {W H : ℕ} {sh : ℕ → List (ℤ × ℤ)} {m : Maze}
    (hodd : 3 ≤ oddify W ∧ 3 ≤ oddify H)
    (hsh : ∀ n, (sh n).Perm genDirs)
    (hm : mkMaze W H sh = some m) :
    GenInv m [] ∧ ∀ c : Cell, m.cells c = 0 ∨ m.cells c = 1 := by
  unfold mkMaze Maze.generate at hm
  rw [Maze.write_in _ 0
    (by show (0 : ℤ) ≤ 1 ∧ (1 : ℤ) < (oddify W : ℤ); omega)
    (by show (0 : ℤ) ≤ 1 ∧ (1 : ℤ) < (oddify H : ℤ); omega)] at hm
  dsimp only at hm
  have hinv := genInv_init (oddify W) (oddify H) hodd.1 hodd.2
  refine ⟨genLoop_inv (fun n d hd => (hsh n).mem_iff.mp hd) hinv hm, ?_⟩
  intro c
  rcases genLoop_vals hm c with h2 | h2
  · left; exact h2
  · rw [h2]
    by_cases hc : c = ((1 : ℤ), (1 : ℤ))
    · left
      show Function.update (fun _ => (1 : ℕ)) ((1 : ℤ), (1 : ℤ)) 0 c = 0
      rw [hc]
      simp
    · right
      show Function.update (fun _ => (1 : ℕ)) ((1 : ℤ), (1 : ℤ)) 0 c = 1
      rw [Function.update_noteq hc]

/-- Odd-rounding never shrinks a dimension. -/
theorem oddify_ge (n : ℕ) : n ≤ oddify n := by
  unfold oddify
  split <;> omega

/-- The facts a freshly constructed maze provides to the game invariant. -/
theorem mkMaze_good {W H : ℕ} {sh : ℕ → List (ℤ × ℤ)} {m : Maze}
    (hodd : 3 ≤ oddify W ∧ 3 ≤ oddify H)
    (hsh : ∀ n, (sh n).Perm genDirs)
    (hm : mkMaze W H sh = some m) :
    3 ≤ m.width ∧ 3 ≤ m.height ∧ (∀ c : Cell, m.cells c = 0 → m.interior c) ∧
    (∀ c : Cell, m.cells c = 0 ∨ m.cells c = 1) ∧ m.cells (1, 1) = 0 := by
  obtain ⟨hinv, hvals⟩ := mkMaze_inv hodd hsh hm
  obtain ⟨hw, hh⟩ := mkMaze_dims hm
  exact ⟨by omega, by omega, hinv.passInt, hvals, hinv.startPass⟩

/-- The invariant every reachable game state maintains: dimensions at least
3, every passage cell strictly interior (hence the whole outer boundary is
wall), every cell value either passage or wall, and the player on a passage
cell. -/
structure GameInv (s : GameState) : Prop where
  wge : 3 ≤ s.maze.width
  hge : 3 ≤ s.maze.height
  passInt : ∀ c : Cell, s.maze.cells c = 0 → s.maze.interior c
  vals : ∀ c : Cell, s.maze.cells c = 0 ∨ s.maze.cells c = 1
  playerPass : s.maze.cells s.player_pos = 0

/-- The game states reachable in a run of `main`: the state built by
`MazeGame.__init__` (both requested dimensions rounding to at least 3), and
anything `handle_input` can step to from a reachable state, under any key,
any win-loop key list and any legal shuffle stream. -/
inductive Reach : GameState → Prop
  | init (W H : ℕ) (sh : ℕ → List (ℤ × ℤ)) (g : GameState)
      (hodd : 3 ≤ oddify W ∧ 3 ≤ oddify H)
      (hsh : ∀ n, (sh n).Perm genDirs)
      (h : mkGame W H sh = some g) : Reach g
  | step (s : GameState) (k : Key) (winKeys : List Key)
      (sh : ℕ → List (ℤ × ℤ)) (s' : GameState)
      (hsh : ∀ n, (sh n).Perm genDirs)
      (hr : Reach s)
      (h : handleInput sh s k winKeys = some (some s')) : Reach s'

/-- What a successful `MazeGame.__init__` returns. -/
theorem mkGame_some {W H : ℕ} {sh : ℕ → List (ℤ × ℤ)} {g : GameState}
    (h : mkGame W H sh = some g) :
    ∃ m path, mkMaze W H sh = some m ∧
      g = { maze := m, player_pos := (1, 1),
            goal_pos := ((m.width : ℤ) - 2, (m.height : ℤ) - 2),
            show_solution := false, solution_path := path } := by
  unfold mkGame at h
  cases hm : mkMaze W H sh with
  | none => rw [hm] at h; exact absurd h (by simp)
  | some m =>
    rw [hm] at h
    simp only [Option.bind_eq_bind, Option.some_bind] at h
    cases hp : computeSolution m (1, 1) ((m.width : ℤ) - 2, (m.height : ℤ) - 2) with
    | none => rw [hp] at h; exact absurd h (by simp)
    | some path =>
      rw [hp] at h
      simp only [Option.some_bind, Option.pure_def, Option.some.injEq] at h
      exact ⟨m, path, rfl, h.symm⟩

/-- What a successful regeneration (`'n'` branch) returns. -/
theorem regenerated_some {sh : ℕ → List (ℤ × ℤ)} {s s' : GameState}
    (h : regenerated sh s = some s') :
    ∃ m path, mkMaze s.maze.width s.maze.height sh = some m ∧
      s' = { maze := m, player_pos := (1, 1),
             goal_pos := ((m.width : ℤ) - 2, (m.height : ℤ) - 2),
             show_solution := false, solution_path := path } := by
  unfold regenerated at h
  cases hm : mkMaze s.maze.width s.maze.height sh with
  | none => rw [hm] at h; exact absurd h (by simp)
  | some m =>
    rw [hm] at h
    simp only [Option.bind_eq_bind, Option.some_bind] at h
    cases hp : computeSolution m (1, 1) ((m.width : ℤ) - 2, (m.height : ℤ) - 2) with
    | none => rw [hp] at h; exact absurd h (by simp)
    | some path =>
      rw [hp] at h
      simp only [Option.some_bind, Option.pure_def, Option.some.injEq] at h
      exact ⟨m, path, rfl, h.symm⟩

/-- A continue-result of the win loop is a regenerated state. -/
theorem winLoop_some {sh : ℕ → List (ℤ × ℤ)} {s : GameState} :
    ∀ {ks : List Key} {s' : GameState}, winLoop sh s ks = some (some s') →
    ∃ m path, mkMaze s.maze.width s.maze.height sh = some m ∧
      s' = { maze := m, player_pos := (1, 1),
             goal_pos := ((m.width : ℤ) - 2, (m.height : ℤ) - 2),
             show_solution := false, solution_path := path } := by
  intro ks
  induction ks with
  | nil => intro s' h; simp [winLoop] at h
  | cons k rest ih =>
    intro s' h
    cases k with
    | keyQ => simp [winLoop] at h
    | keyN =>
      simp only [winLoop] at h
      cases hr : regenerated sh s with
      | none => rw [hr] at h; exact absurd h (by simp)
      | some s1 =>
        rw [hr] at h
        simp only [Option.map_some', Option.some.injEq] at h
        subst h
        exact regenerated_some hr
    | up => simp only [winLoop] at h; exact ih h
    | down => simp only [winLoop] at h; exact ih h
    | left => simp only [winLoop] at h; exact ih h
    | right => simp only [winLoop] at h; exact ih h
    | keyS => simp only [winLoop] at h; exact ih h
    | other => simp only [winLoop] at h; exact ih h

/-- Case analysis of the pre-win-check branch of `handle_input`: a rejected
move or an unmapped key leaves the state unchanged, `'s'` toggles the flag,
an accepted move updates the player to an adjacent cell that read as `0`,
and `'n'` installs a regenerated state. -/
theorem mainBranch_cases {sh : ℕ → List (ℤ × ℤ)} {s : GameState} {k : Key}
    {s1 : GameState} (h : mainBranch sh s k = some s1) :
    s1 = s ∨
    s1 = { s with show_solution := !s.show_solution } ∨
    (∃ d v path, keyDelta k = some d ∧
      s.maze.read (s.player_pos.1 + d.1) (s.player_pos.2 + d.2) = some v ∧
      v = 0 ∧
      s1 = { s with player_pos := (s.player_pos.1 + d.1, s.player_pos.2 + d.2),
                    solution_path := path }) ∨
    (∃ m path, mkMaze s.maze.width s.maze.height sh = some m ∧
      s1 = { maze := m, player_pos := (1, 1),
             goal_pos := ((m.width : ℤ) - 2, (m.height : ℤ) - 2),
             show_solution := false, solution_path := path }) := by
  unfold mainBranch at h
  cases hk : keyDelta k with
  | some d =>
    rw [hk] at h
    dsimp only at h
    cases hv : s.maze.read (s.player_pos.1 + d.1) (s.player_pos.2 + d.2) with
    | none => rw [hv] at h; exact absurd h (by simp)
    | some v =>
      rw [hv] at h
      simp only [Option.bind_eq_bind, Option.some_bind] at h
      by_cases h0 : v = 0
      · rw [if_pos h0] at h
        cases hp : computeSolution s.maze
            (s.player_pos.1 + d.1, s.player_pos.2 + d.2) s.goal_pos with
        | none => rw [hp] at h; exact absurd h (by simp)
        | some path =>
          rw [hp] at h
          simp only [Option.some_bind, Option.pure_def, Option.some.injEq] at h
          exact Or.inr (Or.inr (Or.inl ⟨d, v, path, rfl, hv, h0, h.symm⟩))
      · rw [if_neg h0] at h
        simp only [Option.pure_def, Option.some.injEq] at h
        exact Or.inl h.symm
  | none =>
    rw [hk] at h
    cases k with
    | up => simp [keyDelta] at hk
    | down => simp [keyDelta] at hk
    | left => simp [keyDelta] at hk
    | right => simp [keyDelta] at hk
    | keyQ =>
      dsimp only at h
      simp only [Option.some.injEq] at h
      exact Or.inl h.symm
    | keyS =>
      dsimp only at h
      simp only [Option.some.injEq] at h
      exact Or.inr (Or.inl h.symm)
    | keyN =>
      dsimp only at h
      obtain ⟨m, path, hm, hrec⟩ := regenerated_some h
      exact Or.inr (Or.inr (Or.inr ⟨m, path, hm, hrec⟩))
    | other =>
      dsimp only at h
      simp only [Option.some.injEq] at h
      exact Or.inl h.symm

/-- The deltas of the key map are the four unit vectors. -/
theorem keyDelta_unit {k : Key} {d : ℤ × ℤ} (h : keyDelta k = some d) :
    d = (0, -1) ∨ d = (0, 1) ∨ d = (-1, 0) ∨ d = (1, 0) := by
  cases k with
  | up => exact Or.inl (Option.some.inj h).symm
  | down => exact Or.inr (Or.inl (Option.some.inj h).symm)
  | left => exact Or.inr (Or.inr (Or.inl (Option.some.inj h).symm))
  | right => exact Or.inr (Or.inr (Or.inr (Option.some.inj h).symm))
  | keyQ => exact absurd h (by simp [keyDelta])
  | keyS => exact absurd h (by simp [keyDelta])
  | keyN => exact absurd h (by simp [keyDelta])
  | other => exact absurd h (by simp [keyDelta])

/-- The pre-win-check branch preserves the game invariant. -/
theorem gameInv_mainBranch {sh : ℕ → List (ℤ × ℤ)} {s : GameState} {k : Key}
    {s1 : GameState} (hsh : ∀ n, (sh n).Perm genDirs) (inv : GameInv s)
    (h : mainBranch sh s k = some s1) : GameInv s1 := by
  rcases mainBranch_cases h with h1 | h1 | ⟨d, v, path, hk, hv, h0, h1⟩ | ⟨m, path, hm, h1⟩
  · rwa [h1]
  · subst h1
    exact ⟨inv.wge, inv.hge, inv.passInt, inv.vals, inv.playerPass⟩
  · subst h1
    subst h0
    obtain ⟨pi1, pi2, pi3, pi4⟩ := inv.passInt _ inv.playerPass
    have hd := keyDelta_unit hk
    have hx : 0 ≤ s.player_pos.1 + d.1 ∧ s.player_pos.1 + d.1 < (s.maze.width : ℤ) := by
      rcases hd with rfl | rfl | rfl | rfl <;> dsimp only <;> omega
    have hy : 0 ≤ s.player_pos.2 + d.2 ∧ s.player_pos.2 + d.2 < (s.maze.height : ℤ) := by
      rcases hd with rfl | rfl | rfl | rfl <;> dsimp only <;> omega
    rw [Maze.read_in s.maze hx hy] at hv
    have hcell : s.maze.cells (s.player_pos.1 + d.1, s.player_pos.2 + d.2) = 0 :=
      Option.some.inj hv
    exact ⟨inv.wge, inv.hge, inv.passInt, inv.vals, hcell⟩
  · subst h1
    obtain ⟨hw3, hh3, hpass, hvals, hstart⟩ :=
      mkMaze_good ⟨by have := oddify_ge s.maze.width; have := inv.wge; omega,
                   by have := oddify_ge s.maze.height; have := inv.hge; omega⟩ hsh hm
    exact ⟨hw3, hh3, hpass, hvals, hstart⟩

/-- `handle_input` on any key other than `'q'` runs the selected branch and
then the win check. -/
theorem handleInput_ne_q {sh : ℕ → List (ℤ × ℤ)} {s : GameState} {k : Key}
    {winKeys : List Key} (hk : k ≠ Key.keyQ) :
    handleInput sh s k winKeys =
      (mainBranch sh s k).bind fun s1 =>
        if s1.player_pos = s1.goal_pos then winLoop sh s1 winKeys
        else some (some s1) := by
  cases k <;> first | rfl | exact absurd rfl hk

/-- One `handle_input` step preserves the game invariant. -/
theorem gameInv_step {sh : ℕ → List (ℤ × ℤ)} {s : GameState} {k : Key}
    {winKeys : List Key} {s' : GameState}
    (hsh : ∀ n, (sh n).Perm genDirs) (inv : GameInv s)
    (h : handleInput sh s k winKeys = some (some s')) : GameInv s' := by
  by_cases hk : k = Key.keyQ
  · subst hk
    exact absurd h (by simp [handleInput])
  · rw [handleInput_ne_q hk] at h
    cases hm1 : mainBranch sh s k with
    | none => rw [hm1] at h; exact Option.noConfusion h
    | some s1 =>
      rw [hm1] at h
      have h2 : (if s1.player_pos = s1.goal_pos then winLoop sh s1 winKeys
          else some (some s1)) = some (some s') := h
      have inv1 : GameInv s1 := gameInv_mainBranch hsh inv hm1
      by_cases hpg : s1.player_pos = s1.goal_pos
      · rw [if_pos hpg] at h2
        obtain ⟨m, path, hm, hrec⟩ := winLoop_some h2
        subst hrec
        obtain ⟨hw3, hh3, hpass, hvals, hstart⟩ :=
          mkMaze_good ⟨by have := oddify_ge s1.maze.width; have := inv1.wge; omega,
                       by have := oddify_ge s1.maze.height; have := inv1.hge; omega⟩ hsh hm
        exact ⟨hw3, hh3, hpass, hvals, hstart⟩
      · rw [if_neg hpg] at h2
        simp only [Option.some.injEq] at h2
        rw [← h2]
        exact inv1

/-- Every reachable game state satisfies the invariant. -/
theorem gameInv_reach {s : GameState} (hr : Reach s) : GameInv s := by
  induction hr with
  | init W H sh g hodd hsh h =>
    obtain ⟨m, path, hm, hrec⟩ := mkGame_some h
    subst hrec
    obtain ⟨hw3, hh3, hpass, hvals, hstart⟩ := mkMaze_good hodd hsh hm
    exact ⟨hw3, hh3, hpass, hvals, hstart⟩
  | step s k winKeys sh s' hsh hr h ih => exact gameInv_step hsh ih h

/-- C10: for mazes whose dimensions round to at least 3, every reachable
game state keeps every outer-boundary grid cell a wall and the player on a
passage cell with 1 ≤ x ≤ width - 2 and 1 ≤ y ≤ height - 2; consequently
the unchecked target read of the move handler succeeds in bounds (no index
error, no negative-index wraparound) for all four unit directions. -/
theorem C10_reachable_state_safe (s : GameState) (hr : Reach s) :
    (∀ c : Cell, c ∈ s.maze.region →
      (c.1 = 0 ∨ c.1 = (s.maze.width : ℤ) - 1 ∨
       c.2 = 0 ∨ c.2 = (s.maze.height : ℤ) - 1) →
      s.maze.cells c = 1) ∧
    (s.maze.cells s.player_pos = 0 ∧
      1 ≤ s.player_pos.1 ∧ s.player_pos.1 ≤ (s.maze.width : ℤ) - 2 ∧
      1 ≤ s.player_pos.2 ∧ s.player_pos.2 ≤ (s.maze.height : ℤ) - 2) ∧
    ∀ k : Key, ∀ d : ℤ × ℤ, keyDelta k = some d →
      0 ≤ s.player_pos.1 + d.1 ∧ s.player_pos.1 + d.1 < (s.maze.width : ℤ) ∧
      0 ≤ s.player_pos.2 + d.2 ∧ s.player_pos.2 + d.2 < (s.maze.height : ℤ) ∧
      s.maze.read (s.player_pos.1 + d.1) (s.player_pos.2 + d.2) =
        some (s.maze.cells (s.player_pos.1 + d.1, s.player_pos.2 + d.2)) := by
  have inv := gameInv_reach hr
  obtain ⟨pi1, pi2, pi3, pi4⟩ := inv.passInt _ inv.playerPass
  refine ⟨?_, ⟨inv.playerPass, pi1, pi2, pi3, pi4⟩, ?_⟩
  · intro c hc hb
    rcases inv.vals c with h0 | h1
    · obtain ⟨k1, k2, k3, k4⟩ := inv.passInt c h0
      rcases hb with hb | hb | hb | hb <;> omega
    · exact h1
  · intro k d hk
    have hd := keyDelta_unit hk
    have hx : 0 ≤ s.player_pos.1 + d.1 ∧ s.player_pos.1 + d.1 < (s.maze.width : ℤ) := by
      rcases hd with rfl | rfl | rfl | rfl <;> dsimp only <;> omega
    have hy : 0 ≤ s.player_pos.2 + d.2 ∧ s.player_pos.2 + d.2 < (s.maze.height : ℤ) := by
      rcases hd with rfl | rfl | rfl | rfl <;> dsimp only <;> omega
    exact ⟨hx.1, hx.2, hy.1, hy.2, Maze.read_in s.maze hx hy⟩

/-- Witness for C10: the initial 5 × 7 game state is reachable, and there
the boundary-wall, interior-player and in-bounds-read conclusions hold. -/
theorem C10_reachable_state_safe_witness :
    (∀ c : Cell, c ∈ g46.maze.region →
      (c.1 = 0 ∨ c.1 = (g46.maze.width : ℤ) - 1 ∨
       c.2 = 0 ∨ c.2 = (g46.maze.height : ℤ) - 1) →
      g46.maze.cells c = 1) ∧
    (g46.maze.cells g46.player_pos = 0 ∧
      1 ≤ g46.player_pos.1 ∧ g46.player_pos.1 ≤ (g46.maze.width : ℤ) - 2 ∧
      1 ≤ g46.player_pos.2 ∧ g46.player_pos.2 ≤ (g46.maze.height : ℤ) - 2) ∧
    ∀ k : Key, ∀ d : ℤ × ℤ, keyDelta k = some d →
      0 ≤ g46.player_pos.1 + d.1 ∧ g46.player_pos.1 + d.1 < (g46.maze.width : ℤ) ∧
      0 ≤ g46.player_pos.2 + d.2 ∧ g46.player_pos.2 + d.2 < (g46.maze.height : ℤ) ∧
      g46.maze.read (g46.player_pos.1 + d.1) (g46.player_pos.2 + d.2) =
        some (g46.maze.cells (g46.player_pos.1 + d.1, g46.player_pos.2 + d.2)) :=
  C10_reachable_state_safe g46
    (Reach.init 4 6 constShuffle g46 (by decide) (fun n => List.Perm.refl _) (by rfl))
